import Mathlib

set_option maxRecDepth 40000

/-!
Verification of the HackDVBS DVB-S encoder core.

The definitions below are shallow embeddings of the Go sources:
bytes are `Nat` values below 256, byte slices are `List Nat`, and the
stateful encoder objects are threaded explicitly.  Functions keep the
names of the Go functions they embed (`ScrambleTS`, `Encode`,
`Interleave`, `ConvolutionalEncode`, `Parity`, ...).

The GF(2^8) exp/log tables and the 1503-byte PRBS lookup table are
repository data that is not part of the source tree; they are modelled
from the specification (primitive polynomial 0x11D with generator 2,
and the 1 + x^14 + x^15 LFSR loaded with 0x4A80), as noted on the
corresponding definitions.
-/

namespace HackDVBS

/-! ### Pipeline constants (src/consts/consts.go) -/

def TSPacketSize : Nat := 188
def RSPacketSize : Nat := 204
def InterleaveDepth : Nat := 12
def TSSyncByte : Nat := 0x47

/-! ### GF(2^8) arithmetic

`xtime` is multiplication by the generator 2 modulo the primitive
polynomial 0x11D; `gmul` is the standard shift-and-add carry-less
multiplication in the field.  These are the mathematical reference for
the table-driven `gfMul` used by the Reed-Solomon encoder. -/

def xtime (x : Nat) : Nat :=
  if x &&& 0x80 = 0 then x <<< 1 else (x <<< 1) ^^^ 0x11D

def mulLoop : Nat → Nat → Nat → Nat → Nat
  | 0, _, _, acc => acc
  | n + 1, a, b, acc =>
      mulLoop n (a >>> 1) (xtime b) (if a &&& 1 = 1 then acc ^^^ b else acc)

def gmul (a b : Nat) : Nat := mulLoop 8 a b 0

/-- Closed form of the `gmul` loop: XOR of the addends selected by the
bits of the first factor. -/
def sumBits : Nat → Nat → Nat → Nat
  | 0, _, _ => 0
  | n + 1, a, b =>
      (if a &&& 1 = 1 then b else 0) ^^^ sumBits n (a >>> 1) (xtime b)

/-- Modelled from the spec: exp table for GF(2^8), `exp[i] = α^i` with
α = 2, built by repeated multiplication by α (the table itself is repo
data missing from the source tree). -/
def expGo : Nat → Nat → List Nat
  | 0, _ => []
  | n + 1, acc => acc :: expGo n (xtime acc)

def expList : List Nat := expGo 255 1

/-- The 255 powers of α as a literal table (theorem `expTableDerived`
checks it against the `expGo` recurrence). -/
def expTable : List Nat :=
  [1, 2, 4, 8, 16, 32, 64, 128, 29, 58, 116, 232, 205, 135, 19, 38, 76, 152,
   45, 90, 180, 117, 234, 201, 143, 3, 6, 12, 24, 48, 96, 192, 157, 39, 78,
   156, 37, 74, 148, 53, 106, 212, 181, 119, 238, 193, 159, 35, 70, 140, 5,
   10, 20, 40, 80, 160, 93, 186, 105, 210, 185, 111, 222, 161, 95, 190, 97,
   194, 153, 47, 94, 188, 101, 202, 137, 15, 30, 60, 120, 240, 253, 231, 211,
   187, 107, 214, 177, 127, 254, 225, 223, 163, 91, 182, 113, 226, 217, 175,
   67, 134, 17, 34, 68, 136, 13, 26, 52, 104, 208, 189, 103, 206, 129, 31,
   62, 124, 248, 237, 199, 147, 59, 118, 236, 197, 151, 51, 102, 204, 133,
   23, 46, 92, 184, 109, 218, 169, 79, 158, 33, 66, 132, 21, 42, 84, 168, 77,
   154, 41, 82, 164, 85, 170, 73, 146, 57, 114, 228, 213, 183, 115, 230, 209,
   191, 99, 198, 145, 63, 126, 252, 229, 215, 179, 123, 246, 241, 255, 227,
   219, 171, 75, 150, 49, 98, 196, 149, 55, 110, 220, 165, 87, 174, 65, 130,
   25, 50, 100, 200, 141, 7, 14, 28, 56, 112, 224, 221, 167, 83, 166, 81,
   162, 89, 178, 121, 242, 249, 239, 195, 155, 43, 86, 172, 69, 138, 9, 18,
   36, 72, 144, 61, 122, 244, 245, 247, 243, 251, 235, 203, 139, 11, 22, 44,
   88, 176, 125, 250, 233, 207, 131, 27, 54, 108, 216, 173, 71, 142]

/-- Modelled from the spec: extended exp table lookup,
`exp[i] = α^(i mod 255)` for the index range 0..510 used by `gfMul`. -/
def gfExp (i : Nat) : Nat := expTable.getD (i % 255) 0

/-- Modelled from the spec: log table, `log[x]` is the exponent `e`
with `α^e = x` (log of 0 is unused by `gfMul`). -/
def gfLog (x : Nat) : Nat := expTable.findIdx (fun y => y == x)

/-- `gfMul` from src/dvbs/reedsolomon.go: table-driven field
multiplication, 0 when either factor is 0. -/
def gfMul (a b : Nat) : Nat :=
  if a = 0 || b = 0 then 0 else gfExp (gfLog a + gfLog b)

/-! ### Reed-Solomon RS(204,188) encoder (src/dvbs/reedsolomon.go) -/

/-- The hardcoded generator polynomial from `NewRSEncoder`
(non-leading coefficients, highest degree first). -/
def generatorPoly : List Nat :=
  [59, 13, 104, 189, 68, 209, 30, 8, 163, 65, 41, 229, 98, 50, 36, 59]

/-- XOR a list of update bytes into the leading entries of a list;
embeds the inner `tmp[i+j+1] ^= ...` loop of `Encode`. -/
def xorInto : List Nat → List Nat → List Nat
  | l, [] => l
  | [], _ => []
  | a :: l, w :: ws => (a ^^^ w) :: xorInto l ws

/-- One step of the polynomial-division loop of `Encode`: consume the
leading byte `coef = tmp[i]` and, when non-zero, XOR
`gfMul(generator[j], coef)` into the next 16 bytes. -/
def divStep : List Nat → List Nat
  | [] => []
  | c :: rest =>
      if c = 0 then rest
      else xorInto rest (generatorPoly.map (fun g => gfMul g c))

def applyN : Nat → (α → α) → α → α
  | 0, _, x => x
  | n + 1, f, x => applyN n f (f x)

/-- The 16 parity bytes left in `tmp[188..203]` after the 188 division
steps of `Encode`, starting from the data followed by 16 zero bytes. -/
def rsRemainder (l : List Nat) : List Nat := applyN TSPacketSize divStep l

/-- `RSEncoder.Encode` from src/dvbs/reedsolomon.go: `nil` (here
`none`) unless the input has exactly 188 bytes, otherwise the 204-byte
systematic codeword. -/
def Encode (data : List Nat) : Option (List Nat) :=
  if data.length = 188 then
    some (data ++ rsRemainder (data ++ List.replicate 16 0))
  else none

/-! ### Polynomial evaluation over GF(2^8)

Specification-side notions used to state divisibility of the codeword:
polynomials are byte lists with the highest-degree coefficient first,
evaluated by Horner's rule with `gmul`. -/

def gpow (r : Nat) : Nat → Nat
  | 0 => 1
  | n + 1 => gmul r (gpow r n)

def evalFrom (r acc : Nat) (l : List Nat) : Nat :=
  l.foldl (fun a c => gmul a r ^^^ c) acc

def evalPoly (r : Nat) (l : List Nat) : Nat := evalFrom r 0 l

/-- Multiply a polynomial (highest degree first) by `(x + a)`. -/
def polyMulLin (p : List Nat) (a : Nat) : List Nat :=
  List.zipWith (fun u v => u ^^^ v) (p ++ [0]) (0 :: p.map (gmul a))

/-- The generator polynomial derived algorithmically as the product of
`(x + α^i)` for `i = 0..15` (all 17 coefficients, monic). -/
def prodGen : List Nat :=
  (List.range 16).foldl (fun p i => polyMulLin p (gpow 2 i)) [1]

/-! ### PRBS scrambler (src/dvbs/dvbs.go, `ScrambleTS`) -/

/-- Modelled from the spec: eight clocks of the `1 + x^14 + x^15` LFSR
producing one PRBS byte (tap at bit 14, 15-bit register), as in the
in-source per-bit scrambler variant. -/
def prbsByteGo : Nat → Nat → Nat → Nat × Nat
  | 0, st, acc => (acc, st)
  | n + 1, st, acc =>
      let outBit := (st >>> 14) &&& 1
      let newbit := ((st >>> 14) ^^^ (st >>> 13)) &&& 1
      prbsByteGo n (((st <<< 1) ||| newbit) &&& 0x7FFF) ((acc <<< 1) ||| outBit)

/-- The table generator scrutinises the next LFSR state as a numeral
so that evaluating the table keeps a shallow call stack. -/
def prbsGo : Nat → Nat → List Nat
  | 0, _ => []
  | n + 1, st =>
      match (prbsByteGo 8 st 0).2, (prbsByteGo 8 st 0).1 with
      | 0, b => b :: prbsGo n 0
      | st2 + 1, b => b :: prbsGo n (st2 + 1)

/-- Modelled from the spec: the 1503-byte PRBS lookup table, the LFSR
output bytes starting from register value 0x4A80 (the table itself is
repo data missing from the source tree). -/
def PrbsLUT : List Nat := prbsGo 1503 0x4A80

/-- The scrambler slice of the `DVBSEncoder` struct state. -/
structure ScramblerState where
  prbsIndex : Nat
  packetCounter : Nat
deriving DecidableEq

/-- The byte loop of `ScrambleTS` over payload bytes 1..187: wrap the
cursor when it reaches the table length (`len(PrbsLUT)`, the literal
1503 here, equal to `PrbsLUT.length` by theorem `prbsLen`), XOR the
table byte, advance.  Returns the scrambled bytes and the final
cursor. -/
def scrambleLoop : Nat → List Nat → List Nat × Nat
  | idx, [] => ([], idx)
  | idx, b :: rest =>
      let idx2 := if idx ≥ 1503 then 0 else idx
      let r := scrambleLoop (idx2 + 1) rest
      ((b ^^^ PrbsLUT.getD idx2 0) :: r.1, r.2)

/-- `ScrambleTS` from src/dvbs/dvbs.go: on a superframe boundary
(`packetCounter = 0`) reset the PRBS cursor and invert the sync byte;
otherwise pre-increment the cursor once and leave the sync byte alone;
then scramble bytes 1..187 and advance the packet counter mod 8. -/
def ScrambleTS (s : ScramblerState) (tsPacket : List Nat) :
    List Nat × ScramblerState :=
  match tsPacket with
  | [] => ([], ⟨s.prbsIndex, (s.packetCounter + 1) % 8⟩)
  | b0 :: payload =>
      if s.packetCounter = 0 then
        let r := scrambleLoop 0 payload
        ((b0 ^^^ 0xFF) :: r.1, ⟨r.2, (s.packetCounter + 1) % 8⟩)
      else
        let r := scrambleLoop (s.prbsIndex + 1) payload
        (b0 :: r.1, ⟨r.2, (s.packetCounter + 1) % 8⟩)

/-! ### Inner convolutional encoder (src/dvbs/dvbs.go, utils) -/

/-- `Parity` from src/utils (XOR reduction of the bits of a 16-bit
value). -/
def Parity (n : Nat) : Nat :=
  let a := n ^^^ (n >>> 8)
  let b := a ^^^ (a >>> 4)
  let c := b ^^^ (b >>> 2)
  (c ^^^ (c >>> 1)) &&& 1

/-- The register update of `ConvolutionalEncode`:
`delay = ((delay << 1) | bit) & 0x7F`. -/
def convStep (s b : Nat) : Nat := ((s <<< 1) ||| b) &&& 0x7F

/-- The bits of one byte, MSB first (`for j := 7; j >= 0; j--`). -/
def byteBits (b : Nat) : List Nat :=
  (List.range 8).map (fun j => (b >>> (7 - j)) &&& 1)

def packetBits : List Nat → List Nat
  | [] => []
  | b :: rest => byteBits b ++ packetBits rest

/-- Bit-stream form of the encoder: two `Parity` outputs per input bit
with the code's masks `g1 = 0x4F`, `g2 = 0x6D`, threading the 7-bit
register; returns the code bits and the final register. -/
def convBitsFrom : Nat → List Nat → List Nat × Nat
  | s, [] => ([], s)
  | s, b :: rest =>
      let d := convStep s b
      let r := convBitsFrom d rest
      (Parity (d &&& 0x4F) :: Parity (d &&& 0x6D) :: r.1, r.2)

/-- `ConvolutionalEncode` from src/dvbs/dvbs.go: the register starts at
0 (`delay := uint16(0)`), the bits of each byte are consumed MSB first
(`byteBits` is the `j = 7..0` loop's bit sequence), and two code bits
are appended per input bit using the bit-reversed masks 0x4F and
0x6D. -/
def ConvolutionalEncode (interleavedPacket : List Nat) : List Nat :=
  (interleavedPacket.foldl
    (fun st b =>
      (byteBits b).foldl
        (fun st2 bit =>
          let d := ((st2.2 <<< 1) ||| bit) &&& 0x7F
          (st2.1 ++ [Parity (d &&& 0x4F), Parity (d &&& 0x6D)], d))
        st)
    (([] : List Nat), 0)).1

/-- The per-bit rule exactly as the claim words it: left-shifting
register with the literal generators G1 = 171 octal = 0x79 and
G2 = 133 octal = 0x5B. -/
def claimLeftRule : Nat → List Nat → List Nat
  | _, [] => []
  | s, b :: rest =>
      let d := ((s <<< 1) ||| b) &&& 0x7F
      Parity (d &&& 0x79) :: Parity (d &&& 0x5B) :: claimLeftRule d rest

/-- The standard right-shifting reference encoder with G1 = 0x79,
G2 = 0x5B (most recent bit entering at bit 6). -/
def rightShiftRule : Nat → List Nat → List Nat
  | _, [] => []
  | s, b :: rest =>
      let d := (s >>> 1) ||| (b <<< 6)
      Parity (d &&& 0x79) :: Parity (d &&& 0x5B) :: rightShiftRule d rest

def zipXor (a b : List Nat) : List Nat := List.zipWith (fun x y => x ^^^ y) a b

/-! ### Convolutional interleaver (src/dvbs/dvbs.go, `Interleave`) -/

/-- The interleaver slice of the `DVBSEncoder` struct state: twelve
FIFO delay lines (branch 0 unused) and their write cursors. -/
structure IntlvState where
  fifos : List (List Nat)
  idxs : List Nat
deriving DecidableEq

/-- The interleaver state built by `NewDVBSEncoder`: branch `i` gets a
zeroed FIFO of `i * M` bytes with `M = 204 / 12 = 17`, all cursors 0. -/
def interleaverInit : IntlvState :=
  ⟨(List.range InterleaveDepth).map
      (fun i => List.replicate (i * (RSPacketSize / InterleaveDepth)) 0),
    List.replicate InterleaveDepth 0⟩

/-- The body of the inner branch loop of `Interleave` for branch `i`:
swap `out[p]` with the branch FIFO byte at its cursor and advance the
cursor modulo the FIFO length. -/
def intlvInner (st : List Nat × Nat × IntlvState) (i : Nat) :
    List Nat × Nat × IntlvState :=
  let (out, p, s) := st
  if p < RSPacketSize then
    let fifo := s.fifos.getD i []
    let idx := s.idxs.getD i 0
    let tmp := fifo.getD idx 0
    let fifo2 := fifo.set idx (out.getD p 0)
    (out.set p tmp, p + 1,
      ⟨s.fifos.set i fifo2, s.idxs.set i ((idx + 1) % fifo.length)⟩)
  else st

/-- One iteration of the outer loop of `Interleave`: skip the branch-0
position (`p++`), then run branches 1..11. -/
def intlvOuter (st : List Nat × Nat × IntlvState) :
    List Nat × Nat × IntlvState :=
  let (out, p, s) := st
  (List.range' 1 (InterleaveDepth - 1)).foldl intlvInner (out, p + 1, s)

/-- `Interleave` from src/dvbs/dvbs.go: `out` starts as a copy of the
input padded to 204 bytes, then the outer loop runs 17 times. -/
def Interleave (s : IntlvState) (rsPacket : List Nat) :
    List Nat × IntlvState :=
  let out0 := rsPacket.take RSPacketSize ++
    List.replicate (RSPacketSize - rsPacket.length) 0
  let res := applyN (RSPacketSize / InterleaveDepth) intlvOuter (out0, 0, s)
  (res.1, res.2.2)

/-- The round-robin description of the interleaver: input position `p`
goes to branch `p mod 12`; branch 0 passes through, branch `i > 0`
emits the FIFO byte at the cursor, stores the input byte there and
advances the cursor modulo the FIFO length. -/
def rrStep (s : IntlvState) (p b : Nat) : Nat × IntlvState :=
  let i := p % InterleaveDepth
  if i = 0 then (b, s)
  else
    let fifo := s.fifos.getD i []
    let idx := s.idxs.getD i 0
    (fifo.getD idx 0,
      ⟨s.fifos.set i (fifo.set idx b), s.idxs.set i ((idx + 1) % fifo.length)⟩)

def rrRun : Nat → IntlvState → List Nat → List Nat × IntlvState
  | _, s, [] => ([], s)
  | p, s, b :: rest =>
      let r1 := rrStep s p b
      let r2 := rrRun (p + 1) r1.2 rest
      (r1.1 :: r2.1, r2.2)

/-! ### QPSK mapping (src/consts/qpsk.go, src/dvbs/dvbs.go) -/

/-- `QPSKSymbolMap` from src/consts/qpsk.go holds the four points
(±1/√2, ±1/√2); this table holds their sign numerators, the common
factor 1/√2 being restored in the theorems about it. -/
def QPSKSymbolMapNum : Nat → Int × Int
  | 0 => (1, 1)
  | 1 => (1, -1)
  | 2 => (-1, 1)
  | _ => (-1, -1)

/-- Symbol index formation from `StreamToIQ`:
`sym := (encodedBits[i] << 1) | encodedBits[i+1]`. -/
def streamSym (b1 b0 : Nat) : Nat := (b1 <<< 1) ||| b0

/-! ### Radio fill callback (src/main.go) -/

def streamBufferSize : Nat := 8 * 1024 * 1024

/-- The sample-queue state of the consumer side of src/main.go. -/
structure RadioState where
  buffer : List (Int × Int)
  readPos : Nat
  writePos : Nat
  underflows : Nat
deriving DecidableEq

/-- One sample pop of the `StartTX` fill callback in src/main.go: on
underflow (read position caught up with the write position) re-emit
`sampleBuffer[(bufferReadPos-1+streamBufferSize)%streamBufferSize]`,
do not advance, and bump `bufferUnderflows`; otherwise emit
`sampleBuffer[bufferReadPos]` and advance the read position.  The
buffer length stands for `streamBufferSize` (the Go buffer is
`make([]complex64, streamBufferSize)`); samples are modelled as I/Q
pairs and the digital-gain quantisation, applied identically on both
paths, is left out. -/
def popSample (s : RadioState) : (Int × Int) × RadioState :=
  let n := s.buffer.length
  if s.readPos = s.writePos then
    (s.buffer.getD ((s.readPos + n - 1) % n) (0, 0),
      { s with underflows := s.underflows + 1 })
  else
    (s.buffer.getD s.readPos (0, 0),
      { s with readPos := (s.readPos + 1) % n })

/-! ### Slice-store model (for the frame properties of the stages)

Go slices are modelled as numbered cells of a store: `halloc` appends a
fresh zeroed slice, reads and writes name the slice they touch.  Each
stage below performs exactly the writes of its Go counterpart, so that
"the input slice is never written" is a provable statement. -/

abbrev Heap := List (List Nat)

def halloc (h : Heap) (n : Nat) : Heap × Nat :=
  (h ++ [List.replicate n 0], h.length)

def hread (h : Heap) (q i : Nat) : Nat := (h.getD q []).getD i 0

def hwrite (h : Heap) (q i v : Nat) : Heap :=
  h.set q ((h.getD q []).set i v)

/-- `copy(dst[d0:d0+n], src[s0:s0+n])`, one write per byte. -/
def hcopy : Heap → Nat → Nat → Nat → Nat → Nat → Heap
  | h, _, _, _, _, 0 => h
  | h, dst, d0, src, s0, n + 1 =>
      hcopy (hwrite h dst d0 (hread h src s0)) dst (d0 + 1) src (s0 + 1) n

/-- The byte loop of `ScrambleTS` at store level: XOR the PRBS byte
into `scrambled[i]` in place, for `n` positions starting at `i`. -/
def scrambleStoreGo : Heap → Nat → Nat → Nat → Nat → Heap × Nat
  | h, _, _, idx, 0 => (h, idx)
  | h, sid, i, idx, n + 1 =>
      let idx2 := if idx ≥ 1503 then 0 else idx
      let h2 := hwrite h sid i (hread h sid i ^^^ PrbsLUT.getD idx2 0)
      scrambleStoreGo h2 sid (i + 1) (idx2 + 1) n

/-- `ScrambleTS` at store level: allocate `scrambledPacket`, copy the
input into it, and mutate only the fresh slice. -/
def ScrambleTSStore (h : Heap) (tsId : Nat) (s : ScramblerState) :
    Heap × Nat × ScramblerState :=
  let a := halloc h TSPacketSize
  let h2 := hcopy a.1 a.2 0 tsId 0 TSPacketSize
  if s.packetCounter = 0 then
    let h3 := hwrite h2 a.2 0 (hread h2 a.2 0 ^^^ 0xFF)
    let r := scrambleStoreGo h3 a.2 1 0 (TSPacketSize - 1)
    (r.1, a.2, ⟨r.2, (s.packetCounter + 1) % 8⟩)
  else
    let r := scrambleStoreGo h2 a.2 1 (s.prbsIndex + 1) (TSPacketSize - 1)
    (r.1, a.2, ⟨r.2, (s.packetCounter + 1) % 8⟩)

/-- Inner parity-update loop of `Encode` at store level: XOR
`gfMul(generator[j], coef)` into `tmp[pos + j]` for the 16 generator
coefficients. -/
def rsDivInner : Heap → Nat → Nat → Nat → List Nat → Heap
  | h, _, _, _, [] => h
  | h, tid, pos, coef, g :: gs =>
      rsDivInner (hwrite h tid pos (hread h tid pos ^^^ gfMul g coef))
        tid (pos + 1) coef gs

/-- The division loop of `Encode` at store level (`n` iterations left,
current index `i`). -/
def rsDivLoop : Heap → Nat → Nat → Nat → Heap
  | h, _, _, 0 => h
  | h, tid, i, n + 1 =>
      let coef := hread h tid i
      let h2 := if coef = 0 then h else rsDivInner h tid (i + 1) coef generatorPoly
      rsDivLoop h2 tid (i + 1) n

/-- `RSEncoder.Encode` at store level for a 188-byte input slice:
allocate `tmp`, copy the data, run the division in place, then
allocate `out` and copy data and parity into it.  Only the two fresh
slices are ever written. -/
def EncodeStore (h : Heap) (dataId : Nat) : Heap × Nat :=
  let a := halloc h RSPacketSize
  let h2 := hcopy a.1 a.2 0 dataId 0 TSPacketSize
  let h3 := rsDivLoop h2 a.2 0 TSPacketSize
  let b := halloc h3 RSPacketSize
  let h4 := hcopy b.1 b.2 0 dataId 0 TSPacketSize
  let h5 := hcopy h4 b.2 TSPacketSize a.2 TSPacketSize 16
  (h5, b.2)

/-- Branch body of `Interleave` at store level: the FIFOs live in the
encoder value, only the fresh `out` slice is written. -/
def intlvInnerStore (oid : Nat) (st : Heap × Nat × IntlvState) (i : Nat) :
    Heap × Nat × IntlvState :=
  let (h, p, s) := st
  if p < RSPacketSize then
    let fifo := s.fifos.getD i []
    let idx := s.idxs.getD i 0
    let tmp := fifo.getD idx 0
    let fifo2 := fifo.set idx (hread h oid p)
    (hwrite h oid p tmp, p + 1,
      ⟨s.fifos.set i fifo2, s.idxs.set i ((idx + 1) % fifo.length)⟩)
  else st

def intlvOuterStore (oid : Nat) (st : Heap × Nat × IntlvState) :
    Heap × Nat × IntlvState :=
  let (h, p, s) := st
  (List.range' 1 (InterleaveDepth - 1)).foldl (intlvInnerStore oid) (h, p + 1, s)

/-- `Interleave` at store level: allocate `out`, copy the input, then
swap against the FIFOs in place on the fresh slice only. -/
def InterleaveStore (h : Heap) (rsId : Nat) (s : IntlvState) :
    Heap × Nat × IntlvState :=
  let a := halloc h RSPacketSize
  let h2 := hcopy a.1 a.2 0 rsId 0 RSPacketSize
  let res := applyN (RSPacketSize / InterleaveDepth) (intlvOuterStore a.2) (h2, 0, s)
  (res.1, a.2, res.2.2)

/-- `ConvolutionalEncode` at store level: the code bits are appended
into a freshly allocated slice, the input is only read. -/
def ConvolutionalEncodeStore (h : Heap) (inId : Nat) : Heap × Nat :=
  (h ++ [ConvolutionalEncode ((h.getD inId []).take RSPacketSize)], h.length)

/-- `EncodePacket` at store level: the four stages in pipeline
order. -/
def EncodePacketStore (h : Heap) (tsId : Nat) (sc : ScramblerState)
    (it : IntlvState) : Heap × Nat × ScramblerState × IntlvState :=
  let r1 := ScrambleTSStore h tsId sc
  let r2 := EncodeStore r1.1 r1.2.1
  let r3 := InterleaveStore r2.1 r2.2 it
  let r4 := ConvolutionalEncodeStore r3.1 r3.2.1
  (r4.1, r4.2, r1.2.2, r3.2.2)

/-! ## Theorems

### XOR and shift helpers -/

theorem xorShiftLeft (x y k : Nat) :
    (x ^^^ y) <<< k = (x <<< k) ^^^ (y <<< k) := by
  apply Nat.eq_of_testBit_eq
  intro i
  cases hk : decide (k ≤ i) <;>
    simp [Nat.testBit_shiftLeft, Nat.testBit_xor, hk]

theorem xorShiftRight (x y k : Nat) :
    (x ^^^ y) >>> k = (x >>> k) ^^^ (y >>> k) := by
  apply Nat.eq_of_testBit_eq
  intro i
  simp [Nat.testBit_shiftRight, Nat.testBit_xor]

theorem xorFour (a b c d : Nat) :
    (a ^^^ b) ^^^ (c ^^^ d) = (a ^^^ c) ^^^ (b ^^^ d) := by
  apply Nat.eq_of_testBit_eq
  intro i
  simp only [Nat.testBit_xor]
  cases a.testBit i <;> cases b.testBit i <;> cases c.testBit i <;>
    cases d.testBit i <;> rfl

theorem twoPowXor {n m : Nat} (hm : m < 2 ^ n) : 2 ^ n ^^^ m = 2 ^ n + m := by
  apply Nat.eq_of_testBit_eq
  intro i
  rcases Nat.lt_trichotomy i n with hi | hi | hi
  · rw [Nat.testBit_xor, Nat.testBit_two_pow_of_ne (Nat.ne_of_gt hi),
      Nat.testBit_two_pow_add_gt hi]
    simp
  · subst hi
    rw [Nat.testBit_xor, Nat.testBit_two_pow_self,
      Nat.testBit_two_pow_add_eq, Nat.testBit_lt_two_pow hm]
    rfl
  · have h1 : (2 ^ n : Nat) < 2 ^ i := Nat.pow_lt_pow_right (by omega) hi
    have h2 : m < 2 ^ i := lt_trans hm h1
    have h3 : 2 ^ n + m < 2 ^ i := by
      have : 2 ^ n + m < 2 ^ n + 2 ^ n := by omega
      have h4 : 2 ^ n + 2 ^ n = 2 ^ (n + 1) := by ring
      have h5 : (2 ^ (n + 1) : Nat) ≤ 2 ^ i := Nat.pow_le_pow_right (by omega) (by omega)
      omega
    rw [Nat.testBit_xor, Nat.testBit_lt_two_pow h1, Nat.testBit_lt_two_pow h2,
      Nat.testBit_lt_two_pow h3]
    rfl

/-! ### GF(2^8) multiplication toolkit -/

theorem xtimeLt : ∀ x, x < 256 → xtime x < 256 := by decide

theorem and128Cases : ∀ z, z < 256 → z &&& 128 = 0 ∨ z &&& 128 = 128 := by decide

theorem xtimeLinear (x y : Nat) (hx : x < 256) (hy : y < 256) :
    xtime (x ^^^ y) = xtime x ^^^ xtime y := by
  unfold xtime
  rcases and128Cases x hx with h1 | h1 <;> rcases and128Cases y hy with h2 | h2
  · have hv : (x ^^^ y) &&& 128 = 0 := by rw [Nat.and_xor_distrib_right, h1, h2]; rfl
    rw [if_pos hv, if_pos h1, if_pos h2]
    exact xorShiftLeft x y 1
  · have hv : (x ^^^ y) &&& 128 = 128 := by rw [Nat.and_xor_distrib_right, h1, h2]; rfl
    rw [if_neg (by rw [hv]; norm_num), if_pos h1, if_neg (by rw [h2]; norm_num)]
    apply Nat.eq_of_testBit_eq
    intro i
    simp only [xorShiftLeft, Nat.testBit_xor]
    cases (x <<< 1).testBit i <;> cases (y <<< 1).testBit i <;>
      cases (285 : Nat).testBit i <;> rfl
  · have hv : (x ^^^ y) &&& 128 = 128 := by rw [Nat.and_xor_distrib_right, h1, h2]; rfl
    rw [if_neg (by rw [hv]; norm_num), if_neg (by rw [h1]; norm_num), if_pos h2]
    apply Nat.eq_of_testBit_eq
    intro i
    simp only [xorShiftLeft, Nat.testBit_xor]
    cases (x <<< 1).testBit i <;> cases (y <<< 1).testBit i <;>
      cases (285 : Nat).testBit i <;> rfl
  · have hv : (x ^^^ y) &&& 128 = 0 := by
      rw [Nat.and_xor_distrib_right, h1, h2, Nat.xor_self]
    rw [if_pos hv, if_neg (by rw [h1]; norm_num), if_neg (by rw [h2]; norm_num)]
    apply Nat.eq_of_testBit_eq
    intro i
    simp only [xorShiftLeft, Nat.testBit_xor]
    cases (x <<< 1).testBit i <;> cases (y <<< 1).testBit i <;>
      cases (285 : Nat).testBit i <;> rfl

theorem mulLoopEq (n : Nat) :
    ∀ a b acc, mulLoop n a b acc = acc ^^^ sumBits n a b := by
  induction n with
  | zero => intro a b acc; simp [mulLoop, sumBits]
  | succ n ih =>
      intro a b acc
      simp only [mulLoop, sumBits]
      rw [ih]
      by_cases h : a &&& 1 = 1
      · rw [if_pos h, if_pos h, Nat.xor_assoc]
      · rw [if_neg h, if_neg h, Nat.zero_xor]

theorem gmulEqSumBits (a b : Nat) : gmul a b = sumBits 8 a b := by
  unfold gmul
  rw [mulLoopEq]
  exact Nat.zero_xor _

theorem sumBitsZeroLeft (n : Nat) : ∀ b, sumBits n 0 b = 0 := by
  induction n with
  | zero => intro b; rfl
  | succ n ih => intro b; simp [sumBits, ih]

theorem sumBitsZeroRight (n : Nat) : ∀ a, sumBits n a 0 = 0 := by
  induction n with
  | zero => intro a; rfl
  | succ n ih =>
      intro a
      have hx : xtime 0 = 0 := rfl
      simp [sumBits, hx, ih]

theorem sumBitsXorLeft (n : Nat) :
    ∀ x y b, sumBits n (x ^^^ y) b = sumBits n x b ^^^ sumBits n y b := by
  induction n with
  | zero => intro x y b; simp [sumBits]
  | succ n ih =>
      intro x y b
      simp only [sumBits]
      rw [Nat.and_xor_distrib_right, xorShiftRight, ih]
      conv_rhs => rw [xorFour]
      congr 1
      by_cases h1 : x &&& 1 = 1 <;> by_cases h2 : y &&& 1 = 1
      · rw [if_pos h1, if_pos h2, h1, h2, if_neg (by decide), Nat.xor_self]
      · rw [if_pos h1, if_neg h2, Nat.xor_zero]
        have h2' : y &&& 1 = 0 := by
          have := Nat.and_one_is_mod y
          have := Nat.mod_two_eq_zero_or_one y
          omega
        rw [h1, h2', if_pos (by decide)]
      · rw [if_neg h1, if_pos h2, Nat.zero_xor]
        have h1' : x &&& 1 = 0 := by
          have := Nat.and_one_is_mod x
          have := Nat.mod_two_eq_zero_or_one x
          omega
        rw [h1', h2, if_pos (by decide)]
      · rw [if_neg h1, if_neg h2, Nat.xor_zero]
        have h1' : x &&& 1 = 0 := by
          have := Nat.and_one_is_mod x
          have := Nat.mod_two_eq_zero_or_one x
          omega
        have h2' : y &&& 1 = 0 := by
          have := Nat.and_one_is_mod y
          have := Nat.mod_two_eq_zero_or_one y
          omega
        rw [h1', h2', if_neg (by decide)]

theorem sumBitsXorRight (n : Nat) :
    ∀ a x y, x < 256 → y < 256 →
      sumBits n a (x ^^^ y) = sumBits n a x ^^^ sumBits n a y := by
  induction n with
  | zero => intro a x y _ _; simp [sumBits]
  | succ n ih =>
      intro a x y hx hy
      simp only [sumBits]
      rw [xtimeLinear x y hx hy, ih (a >>> 1) _ _ (xtimeLt x hx) (xtimeLt y hy)]
      conv_rhs => rw [xorFour]
      congr 1
      by_cases h : a &&& 1 = 1
      · rw [if_pos h, if_pos h, if_pos h]
      · rw [if_neg h, if_neg h, if_neg h, Nat.xor_zero]

theorem sumBitsLt (n : Nat) : ∀ a b, b < 256 → sumBits n a b < 256 := by
  induction n with
  | zero => intro a b _; simp [sumBits]
  | succ n ih =>
      intro a b hb
      have h256 : (256 : Nat) = 2 ^ 8 := rfl
      simp only [sumBits]
      rw [h256]
      apply Nat.xor_lt_two_pow
      · by_cases h : a &&& 1 = 1
        · rw [if_pos h]; omega
        · rw [if_neg h]; omega
      · rw [← h256]; exact ih _ _ (xtimeLt b hb)

theorem gmulLt (a b : Nat) (hb : b < 256) : gmul a b < 256 := by
  rw [gmulEqSumBits]; exact sumBitsLt 8 a b hb

theorem gmulXorLeft (x y b : Nat) :
    gmul (x ^^^ y) b = gmul x b ^^^ gmul y b := by
  simp only [gmulEqSumBits]; exact sumBitsXorLeft 8 x y b

theorem gmulXorRight (a x y : Nat) (hx : x < 256) (hy : y < 256) :
    gmul a (x ^^^ y) = gmul a x ^^^ gmul a y := by
  simp only [gmulEqSumBits]; exact sumBitsXorRight 8 a x y hx hy

theorem gmulZeroLeft (b : Nat) : gmul 0 b = 0 := by
  rw [gmulEqSumBits]; exact sumBitsZeroLeft 8 b

theorem gmulZeroRight (a : Nat) : gmul a 0 = 0 := by
  rw [gmulEqSumBits]; exact sumBitsZeroRight 8 a

theorem gmulOneLeft (b : Nat) : gmul 1 b = b := by
  rw [gmulEqSumBits]
  simp [sumBits, sumBitsZeroLeft]

/-- Extensionality for maps that are GF(2)-linear on bytes: equality on
the power-of-two basis forces equality everywhere. -/
theorem linExt (F G : Nat → Nat)
    (hF : ∀ x y, x < 256 → y < 256 → F (x ^^^ y) = F x ^^^ F y)
    (hG : ∀ x y, x < 256 → y < 256 → G (x ^^^ y) = G x ^^^ G y)
    (hbasis : ∀ i, i < 8 → F (2 ^ i) = G (2 ^ i)) :
    ∀ a, a < 256 → F a = G a := by
  have hF0 : F 0 = 0 := by
    have := hF 0 0 (by omega) (by omega)
    simp at this
    omega
  have hG0 : G 0 = 0 := by
    have := hG 0 0 (by omega) (by omega)
    simp at this
    omega
  have main : ∀ n, n ≤ 8 → ∀ a, a < 2 ^ n → F a = G a := by
    intro n
    induction n with
    | zero =>
        intro _ a ha
        interval_cases a
        rw [hF0, hG0]
    | succ n ih =>
        intro hn a ha
        by_cases hsmall : a < 2 ^ n
        · exact ih (by omega) a hsmall
        · have hm : a - 2 ^ n < 2 ^ n := by
            have := Nat.pow_succ 2 n
            omega
          have hsplit : a = 2 ^ n ^^^ (a - 2 ^ n) := by
            rw [twoPowXor hm]
            omega
          have hp : (2 ^ n : Nat) < 256 := by
            have : (2 ^ n : Nat) ≤ 2 ^ 7 := Nat.pow_le_pow_right (by omega) (by omega)
            omega
          have hm256 : a - 2 ^ n < 256 := by
            have : (2 ^ n : Nat) ≤ 2 ^ 7 := Nat.pow_le_pow_right (by omega) (by omega)
            omega
          rw [hsplit, hF _ _ hp hm256, hG _ _ hp hm256,
            hbasis n (by omega), ih (by omega) _ hm]
  intro a ha
  exact main 8 (le_refl 8) a ha

theorem gmulPowComm : ∀ i, i < 8 → ∀ j, j < 8 →
    gmul (2 ^ i) (2 ^ j) = gmul (2 ^ j) (2 ^ i) := by decide

theorem gmulPowAssoc : ∀ i, i < 8 → ∀ j, j < 8 → ∀ k, k < 8 →
    gmul (gmul (2 ^ i) (2 ^ j)) (2 ^ k) =
      gmul (2 ^ i) (gmul (2 ^ j) (2 ^ k)) := by decide

theorem gmulComm (a b : Nat) (ha : a < 256) (hb : b < 256) :
    gmul a b = gmul b a := by
  refine linExt (fun x => gmul x b) (fun x => gmul b x)
    (fun x y _ _ => gmulXorLeft x y b)
    (fun x y hx hy => gmulXorRight b x y hx hy)
    (fun i hi => ?_) a ha
  refine linExt (fun y => gmul (2 ^ i) y) (fun y => gmul y (2 ^ i))
    (fun x y hx hy => gmulXorRight (2 ^ i) x y hx hy)
    (fun x y _ _ => gmulXorLeft x y (2 ^ i))
    (fun j hj => gmulPowComm i hi j hj) b hb

theorem gmulAssoc (a b c : Nat) (ha : a < 256) (hb : b < 256) (hc : c < 256) :
    gmul (gmul a b) c = gmul a (gmul b c) := by
  refine linExt (fun x => gmul (gmul x b) c) (fun x => gmul x (gmul b c))
    (fun x y _ _ => by
      show gmul (gmul (x ^^^ y) b) c = gmul (gmul x b) c ^^^ gmul (gmul y b) c
      rw [gmulXorLeft x y b, gmulXorLeft])
    (fun x y _ _ => gmulXorLeft x y (gmul b c))
    (fun i hi => ?_) a ha
  refine linExt (fun y => gmul (gmul (2 ^ i) y) c) (fun y => gmul (2 ^ i) (gmul y c))
    ?_ ?_ ?_ b hb
  · intro x y hx hy
    show gmul (gmul (2 ^ i) (x ^^^ y)) c = gmul (gmul (2 ^ i) x) c ^^^ gmul (gmul (2 ^ i) y) c
    rw [gmulXorRight (2 ^ i) x y hx hy, gmulXorLeft]
  · intro x y hx hy
    show gmul (2 ^ i) (gmul (x ^^^ y) c) = gmul (2 ^ i) (gmul x c) ^^^ gmul (2 ^ i) (gmul y c)
    rw [gmulXorLeft x y c,
      gmulXorRight (2 ^ i) _ _ (gmulLt _ _ hc) (gmulLt _ _ hc)]
  · intro j hj
    refine linExt (fun z => gmul (gmul (2 ^ i) (2 ^ j)) z)
      (fun z => gmul (2 ^ i) (gmul (2 ^ j) z)) ?_ ?_ ?_ c hc
    · intro x y hx hy
      exact gmulXorRight _ x y hx hy
    · intro x y hx hy
      show gmul (2 ^ i) (gmul (2 ^ j) (x ^^^ y)) =
        gmul (2 ^ i) (gmul (2 ^ j) x) ^^^ gmul (2 ^ i) (gmul (2 ^ j) y)
      rw [gmulXorRight (2 ^ j) x y hx hy,
        gmulXorRight (2 ^ i) _ _ (gmulLt _ _ hx) (gmulLt _ _ hy)]
    · intro k hk
      exact gmulPowAssoc i hi j hj k hk

theorem gmulOneRight (a : Nat) (ha : a < 256) : gmul a 1 = a := by
  rw [gmulComm a 1 ha (by omega), gmulOneLeft]

/-! ### Polynomial evaluation lemmas -/

theorem gpowLt (r : Nat) (hr : r < 256) : ∀ n, gpow r n < 256
  | 0 => by simp [gpow]
  | n + 1 => gmulLt r _ (gpowLt r hr n)

theorem gpowAdd (r : Nat) (hr : r < 256) (m n : Nat) :
    gpow r (m + n) = gmul (gpow r m) (gpow r n) := by
  induction m with
  | zero => rw [Nat.zero_add]; exact (gmulOneLeft _).symm
  | succ m ih =>
      rw [Nat.succ_add]
      show gmul r (gpow r (m + n)) = gmul (gmul r (gpow r m)) (gpow r n)
      rw [ih, gmulAssoc r (gpow r m) (gpow r n) hr (gpowLt r hr m) (gpowLt r hr n)]

theorem evalFromLt (r : Nat) (hr : r < 256) :
    ∀ l : List Nat, (∀ x ∈ l, x < 256) → ∀ acc, acc < 256 →
      evalFrom r acc l < 256 := by
  intro l
  induction l with
  | nil => intro _ acc hacc; exact hacc
  | cons c l ih =>
      intro hl acc hacc
      show evalFrom r (gmul acc r ^^^ c) l < 256
      apply ih (fun x hx => hl x (List.mem_cons_of_mem c hx))
      have h256 : (256 : Nat) = 2 ^ 8 := rfl
      rw [h256]
      exact Nat.xor_lt_two_pow (gmulLt acc r hr) (hl c (List.mem_cons_self c l))

theorem evalFromH1 (r : Nat) (hr : r < 256) :
    ∀ l : List Nat, (∀ x ∈ l, x < 256) → ∀ acc, acc < 256 →
      evalFrom r acc l = gmul acc (gpow r l.length) ^^^ evalFrom r 0 l := by
  intro l
  induction l with
  | nil =>
      intro _ acc hacc
      show acc = gmul acc 1 ^^^ 0
      rw [gmulOneRight acc hacc, Nat.xor_zero]
  | cons c l ih =>
      intro hl acc hacc
      have hc : c < 256 := hl c (List.mem_cons_self c l)
      have hl' : ∀ x ∈ l, x < 256 := fun x hx => hl x (List.mem_cons_of_mem c hx)
      have hstep : gmul acc r ^^^ c < 256 := by
        have h256 : (256 : Nat) = 2 ^ 8 := rfl
        rw [h256]
        exact Nat.xor_lt_two_pow (gmulLt acc r hr) hc
      show evalFrom r (gmul acc r ^^^ c) l =
        gmul acc (gpow r (c :: l).length) ^^^ evalFrom r 0 (c :: l)
      rw [ih hl' _ hstep]
      have h2 : evalFrom r 0 (c :: l) = gmul c (gpow r l.length) ^^^ evalFrom r 0 l := by
        show evalFrom r (gmul 0 r ^^^ c) l = gmul c (gpow r l.length) ^^^ evalFrom r 0 l
        rw [gmulZeroLeft, Nat.zero_xor]
        exact ih hl' c hc
      rw [h2, gmulXorLeft]
      have h3 : (c :: l).length = l.length + 1 := rfl
      rw [h3]
      have h4 : gpow r (l.length + 1) = gmul r (gpow r l.length) := rfl
      rw [h4]
      rw [← gmulAssoc acc r (gpow r l.length) hacc hr (gpowLt r hr _)]
      rw [← Nat.xor_assoc]

theorem evalFromAppend (r : Nat) (xs ys : List Nat) :
    evalFrom r 0 (xs ++ ys) = evalFrom r (evalFrom r 0 xs) ys := by
  unfold evalFrom
  exact List.foldl_append _ _ xs ys

theorem evalPolyAppend (r : Nat) (hr : r < 256) (xs ys : List Nat)
    (hxs : ∀ x ∈ xs, x < 256) (hys : ∀ x ∈ ys, x < 256) :
    evalPoly r (xs ++ ys) =
      gmul (evalPoly r xs) (gpow r ys.length) ^^^ evalPoly r ys := by
  unfold evalPoly
  rw [evalFromAppend]
  exact evalFromH1 r hr ys hys _ (evalFromLt r hr xs hxs 0 (by omega))

theorem evalZeros (r : Nat) : ∀ n, evalPoly r (List.replicate n 0) = 0 := by
  intro n
  induction n with
  | zero => rfl
  | succ n ih =>
      show evalFrom r (gmul 0 r ^^^ 0) (List.replicate n 0) = 0
      rw [gmulZeroLeft]
      exact ih

theorem evalZipXor (r : Nat) :
    ∀ (l1 l2 : List Nat), l1.length = l2.length → ∀ acc1 acc2,
      evalFrom r (acc1 ^^^ acc2) (zipXor l1 l2) =
        evalFrom r acc1 l1 ^^^ evalFrom r acc2 l2 := by
  intro l1
  induction l1 with
  | nil =>
      intro l2 hlen acc1 acc2
      have : l2 = [] := List.eq_nil_of_length_eq_zero hlen.symm
      subst this
      rfl
  | cons c l1 ih =>
      intro l2 hlen acc1 acc2
      match l2 with
      | [] => simp at hlen
      | d :: l2 =>
          show evalFrom r (gmul (acc1 ^^^ acc2) r ^^^ (c ^^^ d)) (zipXor l1 l2) =
            evalFrom r (gmul acc1 r ^^^ c) l1 ^^^ evalFrom r (gmul acc2 r ^^^ d) l2
          have h1 : gmul (acc1 ^^^ acc2) r ^^^ (c ^^^ d) =
              (gmul acc1 r ^^^ c) ^^^ (gmul acc2 r ^^^ d) := by
            rw [gmulXorLeft, xorFour]
          rw [h1]
          exact ih l2 (by simpa using hlen) _ _

theorem evalScalar (r c : Nat) (hr : r < 256) (hc : c < 256) :
    ∀ l : List Nat, (∀ x ∈ l, x < 256) → ∀ acc, acc < 256 →
      evalFrom r (gmul c acc) (l.map (fun g => gmul c g)) =
        gmul c (evalFrom r acc l) := by
  intro l
  induction l with
  | nil => intro _ acc _; rfl
  | cons g l ih =>
      intro hl acc hacc
      have hg : g < 256 := hl g (List.mem_cons_self g l)
      have hl' : ∀ x ∈ l, x < 256 := fun x hx => hl x (List.mem_cons_of_mem g hx)
      show evalFrom r (gmul (gmul c acc) r ^^^ gmul c g) (l.map (fun g => gmul c g)) =
        gmul c (evalFrom r (gmul acc r ^^^ g) l)
      have h1 : gmul (gmul c acc) r ^^^ gmul c g = gmul c (gmul acc r ^^^ g) := by
        rw [gmulAssoc c acc r hc hacc hr,
          gmulXorRight c _ _ (gmulLt acc r hr) hg]
      rw [h1]
      have hacc' : gmul acc r ^^^ g < 256 := by
        have h256 : (256 : Nat) = 2 ^ 8 := rfl
        rw [h256]
        exact Nat.xor_lt_two_pow (gmulLt acc r hr) hg
      exact ih hl' _ hacc'

/-! ### The table-driven `gfMul` agrees with the field multiplication -/

theorem expTableDerived : expTable = expList := by rfl

theorem expTableLen : expTable.length = 255 := by rfl

theorem expGoGetD : ∀ n acc i, i < n → (expGo n acc).getD i 0 = xtime^[i] acc := by
  intro n
  induction n with
  | zero => intro acc i hi; omega
  | succ n ih =>
      intro acc i hi
      match i with
      | 0 => rfl
      | i + 1 =>
          show (expGo n (xtime acc)).getD i 0 = xtime^[i + 1] acc
          rw [ih (xtime acc) i (by omega), Function.iterate_succ_apply]

theorem gmulTwo (x : Nat) : gmul 2 x = xtime x := by
  rw [gmulEqSumBits]
  show (if 2 &&& 1 = 1 then x else 0) ^^^ sumBits 7 (2 >>> 1) (xtime x) = xtime x
  rw [if_neg (by decide)]
  show 0 ^^^ ((if 1 &&& 1 = 1 then xtime x else 0) ^^^
    sumBits 6 (1 >>> 1) (xtime (xtime x))) = xtime x
  rw [Nat.zero_xor, if_pos (by decide)]
  have h0 : (1 : Nat) >>> 1 = 0 := by decide
  rw [h0, sumBitsZeroLeft, Nat.xor_zero]

theorem gpowTwoIter : ∀ i, gpow 2 i = xtime^[i] 1 := by
  intro i
  induction i with
  | zero => rfl
  | succ i ih =>
      show gmul 2 (gpow 2 i) = xtime^[i + 1] 1
      rw [gmulTwo, ih, Function.iterate_succ_apply']

theorem expTableGetD (i : Nat) (hi : i < 255) : expTable.getD i 0 = gpow 2 i := by
  rw [expTableDerived]
  show (expGo 255 1).getD i 0 = gpow 2 i
  rw [expGoGetD 255 1 i hi, gpowTwoIter]

theorem gpow255 : gpow 2 255 = 1 := by
  show gmul 2 (gpow 2 254) = 1
  rw [← expTableGetD 254 (by omega)]
  rfl

theorem gpowTwoMod (e : Nat) : gpow 2 e = gpow 2 (e % 255) := by
  induction e using Nat.strong_induction_on with
  | _ e ih =>
      by_cases he : e < 255
      · rw [Nat.mod_eq_of_lt he]
      · have h1 : e = 255 + (e - 255) := by omega
        conv_lhs => rw [h1]
        rw [gpowAdd 2 (by omega) 255 (e - 255), gpow255, gmulOneLeft,
          ih (e - 255) (by omega)]
        congr 1
        omega

theorem expTableContains : ∀ c, c < 256 → 0 < c → c ∈ expTable := by decide

theorem findIdxSpec : ∀ (l : List Nat) (c : Nat), c ∈ l →
    l.getD (l.findIdx (fun y => y == c)) 0 = c ∧
      l.findIdx (fun y => y == c) < l.length := by
  intro l
  induction l with
  | nil => intro c h; simp at h
  | cons a l ih =>
      intro c h
      by_cases ha : a = c
      · subst ha
        rw [List.findIdx_cons]
        simp
      · have hfa : (a == c) = false := by simp [ha]
        rw [List.findIdx_cons, hfa]
        have hmem : c ∈ l := by
          rcases List.mem_cons.mp h with h1 | h1
          · exact absurd h1.symm ha
          · exact h1
        obtain ⟨h2, h3⟩ := ih c hmem
        constructor
        · show l.getD (l.findIdx (fun y => y == c)) 0 = c
          exact h2
        · show l.findIdx (fun y => y == c) + 1 < l.length + 1
          omega

theorem gfLogRoundtrip (c : Nat) (h0 : 0 < c) (h256 : c < 256) :
    gpow 2 (gfLog c) = c ∧ gfLog c < 255 := by
  obtain ⟨h1, h2⟩ := findIdxSpec expTable c (expTableContains c h256 h0)
  rw [expTableLen] at h2
  constructor
  · rw [← expTableGetD (gfLog c) h2]
    exact h1
  · exact h2

theorem gfMulEqGmul (a b : Nat) (ha : a < 256) (hb : b < 256) :
    gfMul a b = gmul a b := by
  by_cases ha0 : a = 0
  · subst ha0
    rw [gmulZeroLeft]
    rfl
  · by_cases hb0 : b = 0
    · subst hb0
      rw [gmulZeroRight]
      simp [gfMul]
    · obtain ⟨hra, hla⟩ := gfLogRoundtrip a (by omega) ha
      obtain ⟨hrb, hlb⟩ := gfLogRoundtrip b (by omega) hb
      have h1 : gfMul a b = gfExp (gfLog a + gfLog b) := by
        simp [gfMul, ha0, hb0]
      rw [h1]
      show expTable.getD ((gfLog a + gfLog b) % 255) 0 = gmul a b
      rw [expTableGetD _ (Nat.mod_lt _ (by omega)), ← gpowTwoMod,
        gpowAdd 2 (by omega), hra, hrb]

theorem genBound : ∀ g ∈ generatorPoly, 0 < g ∧ g < 256 := by decide

/-! ### Reed-Solomon division preserves the codeword value at the
generator roots -/

theorem genRoots : ∀ i, i < 16 → evalPoly (gpow 2 i) (1 :: generatorPoly) = 0 := by
  decide

theorem genProdEq : prodGen = 1 :: generatorPoly := by decide

theorem zipXorZeroRight : ∀ l : List Nat, zipXor l (List.replicate l.length 0) = l := by
  intro l
  induction l with
  | nil => rfl
  | cons a l ih =>
      show (a ^^^ 0) :: zipXor l (List.replicate l.length 0) = a :: l
      rw [Nat.xor_zero, ih]

theorem xorIntoLen : ∀ l ws : List Nat, (xorInto l ws).length = l.length := by
  intro l
  induction l with
  | nil => intro ws; cases ws <;> rfl
  | cons a l ih =>
      intro ws
      cases ws with
      | nil => rfl
      | cons w ws =>
          show ((a ^^^ w) :: xorInto l ws).length = (a :: l).length
          simp [ih]

theorem xorIntoZip : ∀ l ws : List Nat, ws.length ≤ l.length →
    xorInto l ws = zipXor l (ws ++ List.replicate (l.length - ws.length) 0) := by
  intro l
  induction l with
  | nil =>
      intro ws hw
      have hws : ws = [] := List.eq_nil_of_length_eq_zero (Nat.le_zero.mp (by simpa using hw))
      subst hws
      rfl
  | cons a l ih =>
      intro ws hw
      cases ws with
      | nil =>
          show a :: l = zipXor (a :: l) (List.replicate (a :: l).length 0)
          rw [zipXorZeroRight]
      | cons w ws =>
          show (a ^^^ w) :: xorInto l ws =
            (a ^^^ w) :: zipXor l (ws ++ List.replicate ((a :: l).length - (w :: ws).length) 0)
          have hlen : (a :: l).length - (w :: ws).length = l.length - ws.length := by
            simp
          rw [hlen, ih ws (by simpa using hw)]

theorem xorIntoBound : ∀ l ws : List Nat, (∀ x ∈ l, x < 256) →
    (∀ x ∈ ws, x < 256) → ∀ x ∈ xorInto l ws, x < 256 := by
  intro l
  induction l with
  | nil => intro ws _ _; cases ws <;> simp [xorInto]
  | cons a l ih =>
      intro ws hl hws
      cases ws with
      | nil => exact hl
      | cons w ws =>
          intro x hx
          rcases List.mem_cons.mp hx with h | h
          · subst h
            have h256 : (256 : Nat) = 2 ^ 8 := rfl
            rw [h256]
            exact Nat.xor_lt_two_pow (hl a (List.mem_cons_self a l))
              (hws w (List.mem_cons_self w ws))
          · exact ih ws (fun y hy => hl y (List.mem_cons_of_mem a hy))
              (fun y hy => hws y (List.mem_cons_of_mem w hy)) x h

theorem divStepLen : ∀ l : List Nat, (divStep l).length = l.length - 1 := by
  intro l
  cases l with
  | nil => rfl
  | cons c rest =>
      by_cases hc : c = 0
      · simp [divStep, hc]
      · simp [divStep, hc, xorIntoLen]

theorem divStepBound : ∀ l : List Nat, (∀ x ∈ l, x < 256) →
    ∀ x ∈ divStep l, x < 256 := by
  intro l hl
  cases l with
  | nil => simp [divStep]
  | cons c rest =>
      have hc : c < 256 := hl c (List.mem_cons_self c rest)
      have hrest : ∀ x ∈ rest, x < 256 := fun y hy => hl y (List.mem_cons_of_mem c hy)
      by_cases hc0 : c = 0
      · simpa [divStep, hc0] using hrest
      · show ∀ x ∈ divStep (c :: rest), x < 256
        have hstep : divStep (c :: rest) =
            xorInto rest (generatorPoly.map fun g => gfMul g c) := by
          simp [divStep, hc0]
        rw [hstep]
        apply xorIntoBound rest _ hrest
        intro x hx
        rcases List.mem_map.mp hx with ⟨g, hg, hgx⟩
        obtain ⟨_, hg256⟩ := genBound g hg
        rw [← hgx, gfMulEqGmul g c hg256 hc]
        exact gmulLt g c hc

theorem evalPolyDef (r : Nat) (l : List Nat) : evalPoly r l = evalFrom r 0 l := rfl

theorem divStepVal (r : Nat) (hr : r < 256)
    (hroot : evalPoly r (1 :: generatorPoly) = 0) :
    ∀ c rest, c < 256 → (∀ x ∈ rest, x < 256) → 16 ≤ rest.length →
      evalPoly r (divStep (c :: rest)) = evalPoly r (c :: rest) := by
  intro c rest hc hrest hlen
  have hgenBound : ∀ x ∈ generatorPoly, x < 256 := fun g hg => (genBound g hg).2
  by_cases hc0 : c = 0
  · subst hc0
    have h1 : divStep (0 :: rest) = rest := by simp [divStep]
    rw [h1]
    show evalFrom r 0 rest = evalFrom r (gmul 0 r ^^^ 0) rest
    rw [gmulZeroLeft, Nat.xor_self]
  · have hds : divStep (c :: rest) =
        xorInto rest (generatorPoly.map fun g => gfMul g c) := by
      simp [divStep, hc0]
    have hmapeq : (generatorPoly.map fun g => gfMul g c) =
        generatorPoly.map fun g => gmul c g := by
      apply List.map_congr_left
      intro g hg
      rw [gfMulEqGmul g c (hgenBound g hg) hc,
        gmulComm g c (hgenBound g hg) hc]
    have hwlen : (generatorPoly.map fun g => gmul c g).length = 16 := by
      simp [generatorPoly]
    have hWlen : ((generatorPoly.map fun g => gmul c g) ++
        List.replicate (rest.length - 16) 0).length = rest.length := by
      simp [hwlen]
      omega
    rw [hds, hmapeq, xorIntoZip rest _ (by omega), hwlen]
    have hz2 : evalPoly r (zipXor rest ((generatorPoly.map fun g => gmul c g) ++
        List.replicate (rest.length - 16) 0)) =
        evalPoly r rest ^^^ evalPoly r ((generatorPoly.map fun g => gmul c g) ++
          List.replicate (rest.length - 16) 0) := by
      have hz := evalZipXor r rest _ hWlen.symm 0 0
      have hz0 : (0 : Nat) ^^^ 0 = 0 := rfl
      rw [hz0] at hz
      exact hz
    rw [hz2]
    have hWbound : ∀ x ∈ (generatorPoly.map fun g => gmul c g), x < 256 := by
      intro x hx
      rcases List.mem_map.mp hx with ⟨g, hg, hgx⟩
      rw [← hgx]
      exact gmulLt c g (hgenBound g hg)
    have h2 : evalPoly r ((generatorPoly.map fun g => gmul c g) ++
        List.replicate (rest.length - 16) 0) =
        gmul (evalPoly r (generatorPoly.map fun g => gmul c g))
          (gpow r (rest.length - 16)) := by
      rw [evalPolyAppend r hr _ _ hWbound (by
        intro x hx
        rw [List.eq_of_mem_replicate hx]
        omega)]
      rw [evalZeros r _, Nat.xor_zero, List.length_replicate]
    have h3 : evalPoly r (generatorPoly.map fun g => gmul c g) =
        gmul c (evalPoly r generatorPoly) := by
      have hsc := evalScalar r c hr hc generatorPoly hgenBound 0 (by omega)
      rw [gmulZeroRight] at hsc
      exact hsc
    have h4 : evalPoly r generatorPoly = gpow r 16 := by
      have h5 : evalPoly r (1 :: generatorPoly) = evalFrom r 1 generatorPoly := by
        show evalFrom r (gmul 0 r ^^^ 1) generatorPoly = evalFrom r 1 generatorPoly
        rw [gmulZeroLeft, Nat.zero_xor]
      have h6 := evalFromH1 r hr generatorPoly hgenBound 1 (by omega)
      have h7 : generatorPoly.length = 16 := rfl
      rw [h7, gmulOneLeft] at h6
      have h8 : gpow r 16 ^^^ evalPoly r generatorPoly = 0 := by
        have hx := hroot
        rw [h5, h6] at hx
        exact hx
      exact (Nat.xor_eq_zero.mp h8).symm
    rw [h2, h3, h4,
      gmulAssoc c (gpow r 16) (gpow r (rest.length - 16)) hc
        (gpowLt r hr 16) (gpowLt r hr _),
      ← gpowAdd r hr 16 (rest.length - 16)]
    have h9 : 16 + (rest.length - 16) = rest.length := by omega
    rw [h9]
    have h10 : evalPoly r (c :: rest) =
        gmul c (gpow r rest.length) ^^^ evalPoly r rest := by
      show evalFrom r (gmul 0 r ^^^ c) rest =
        gmul c (gpow r rest.length) ^^^ evalFrom r 0 rest
      rw [gmulZeroLeft, Nat.zero_xor]
      exact evalFromH1 r hr rest hrest c hc
    rw [h10, Nat.xor_comm]

theorem applyNDivStep (r : Nat) (hr : r < 256)
    (hroot : evalPoly r (1 :: generatorPoly) = 0) :
    ∀ k l, (∀ x ∈ l, x < 256) → k + 16 ≤ l.length →
      evalPoly r (applyN k divStep l) = evalPoly r l ∧
      (∀ x ∈ applyN k divStep l, x < 256) ∧
      (applyN k divStep l).length = l.length - k := by
  intro k
  induction k with
  | zero =>
      intro l hl _
      exact ⟨rfl, hl, by simp [applyN]⟩
  | succ k ih =>
      intro l hl hlen
      simp only [applyN]
      have hval : evalPoly r (divStep l) = evalPoly r l := by
        cases l with
        | nil => simp at hlen
        | cons c rest =>
            exact divStepVal r hr hroot c rest (hl c (List.mem_cons_self c rest))
              (fun y hy => hl y (List.mem_cons_of_mem c hy))
              (by simp at hlen; omega)
      have hlen2 : k + 16 ≤ (divStep l).length := by
        rw [divStepLen]
        omega
      obtain ⟨e1, e2, e3⟩ := ih (divStep l) (divStepBound l hl) hlen2
      refine ⟨by rw [e1, hval], e2, ?_⟩
      rw [e3, divStepLen]
      omega

/-- C3: `RSEncoder.Encode` is systematic (the 204-byte codeword starts
with the 188 data bytes) and the codeword, read as a polynomial over
GF(2^8) with primitive polynomial 0x11D and byte 0 the highest-degree
coefficient, evaluates to 0 at α^i for every i in 0..15 — equivalently
it is divisible by g(x), the product of (x - α^i) for i = 0..15;
moreover the 16 generator coefficients the encoder uses equal those
derived algorithmically from that product. -/
theorem C3_rs_encode_divisible :
    prodGen = 1 :: generatorPoly ∧
    ∀ d : List Nat, d.length = 188 → (∀ x ∈ d, x < 256) →
      ∃ cw, Encode d = some cw ∧ cw.length = 204 ∧ cw.take 188 = d ∧
        ∀ i, i < 16 → evalPoly (gpow 2 i) cw = 0 := by
  refine ⟨genProdEq, ?_⟩
  intro d hd hdb
  have h0 : (d ++ List.replicate 16 0).length = 204 := by simp [hd]
  have hb : ∀ x ∈ d ++ List.replicate 16 0, x < 256 := by
    intro x hx
    rcases List.mem_append.mp hx with h | h
    · exact hdb x h
    · rw [List.eq_of_mem_replicate h]
      omega
  have hrem16 : (rsRemainder (d ++ List.replicate 16 0)).length = 16 := by
    obtain ⟨_, _, e3⟩ := applyNDivStep (gpow 2 0) (gpowLt 2 (by omega) 0)
      (genRoots 0 (by omega)) 188 (d ++ List.replicate 16 0) hb (by omega)
    show (applyN 188 divStep (d ++ List.replicate 16 0)).length = 16
    rw [e3, h0]
  refine ⟨d ++ rsRemainder (d ++ List.replicate 16 0),
    by simp [Encode, hd], by rw [List.length_append, hd, hrem16], ?_, ?_⟩
  · rw [← hd]
    exact List.take_left d _
  · intro i hi
    have hr : gpow 2 i < 256 := gpowLt 2 (by omega) i
    obtain ⟨e1, e2, _⟩ := applyNDivStep (gpow 2 i) hr (genRoots i hi)
      188 (d ++ List.replicate 16 0) hb (by omega)
    have he1 : evalPoly (gpow 2 i) (rsRemainder (d ++ List.replicate 16 0)) =
        evalPoly (gpow 2 i) (d ++ List.replicate 16 0) := e1
    have he2 : ∀ x ∈ rsRemainder (d ++ List.replicate 16 0), x < 256 := e2
    rw [evalPolyAppend (gpow 2 i) hr d _ hdb he2, hrem16, he1,
      evalPolyAppend (gpow 2 i) hr d _ hdb (by
        intro x hx
        rw [List.eq_of_mem_replicate hx]
        omega),
      evalZeros, Nat.xor_zero, List.length_replicate, Nat.xor_self]

/-- C6: `Encode` returns a codeword exactly when the input has 188
bytes; any other length yields `nil` (`none`). -/
theorem C6_encode_length_check :
    ∀ d : List Nat, (Encode d).isSome ↔ d.length = 188 := by
  intro d
  by_cases h : d.length = 188 <;> simp [Encode, h]

/-! ### Scrambler lemmas -/

theorem prbsGoLen : ∀ n st, (prbsGo n st).length = n := by
  intro n
  induction n with
  | zero => intro st; rfl
  | succ n ih =>
      intro st
      rcases h : (prbsByteGo 8 st 0).2 with _ | st2 <;>
        simp [prbsGo, h, ih]

theorem prbsLen : PrbsLUT.length = 1503 := prbsGoLen 1503 0x4A80

theorem scrambleLoopSpec : ∀ (l : List Nat) (idx : Nat), idx + l.length ≤ 1503 →
    (scrambleLoop idx l).2 = idx + l.length ∧
    ∀ k, k < l.length →
      (scrambleLoop idx l).1.getD k 0 = l.getD k 0 ^^^ PrbsLUT.getD (idx + k) 0 := by
  intro l
  induction l with
  | nil =>
      intro idx _
      exact ⟨rfl, fun k hk => absurd hk (by simp)⟩
  | cons b rest ih =>
      intro idx hidx
      have hlt : ¬ idx ≥ 1503 := by
        simp at hidx
        omega
      have hunfold : scrambleLoop idx (b :: rest) =
          ((b ^^^ PrbsLUT.getD idx 0) :: (scrambleLoop (idx + 1) rest).1,
            (scrambleLoop (idx + 1) rest).2) := by
        show (let idx2 := if idx ≥ 1503 then 0 else idx
              let r := scrambleLoop (idx2 + 1) rest
              ((b ^^^ PrbsLUT.getD idx2 0) :: r.1, r.2)) = _
        rw [if_neg hlt]
      obtain ⟨ih1, ih2⟩ := ih (idx + 1) (by simp at hidx; omega)
      constructor
      · rw [hunfold, ih1]
        simp
        omega
      · intro k hk
        rw [hunfold]
        match k with
        | 0 => simp
        | k + 1 =>
            show (scrambleLoop (idx + 1) rest).1.getD k 0 =
              rest.getD k 0 ^^^ PrbsLUT.getD (idx + (k + 1)) 0
            rw [ih2 k (by simp at hk; omega)]
            congr 2
            omega

/-- C1 as stated is false on the code: for the second packet of a
session the payload is XORed with `PRBS_LUT[188..374]`, not
`PRBS_LUT[187..373]` — the pre-increment on non-boundary packets skips
one table entry. -/
theorem C1_counterexample :
    (ScrambleTS (ScrambleTS ⟨0, 0⟩ (0x47 :: List.replicate 187 0)).2
        (0x47 :: List.replicate 187 0)).1.getD 1 0 = PrbsLUT.getD 188 0 ∧
    (ScrambleTS (ScrambleTS ⟨0, 0⟩ (0x47 :: List.replicate 187 0)).2
        (0x47 :: List.replicate 187 0)).1.getD 1 0 ≠ PrbsLUT.getD 187 0 := by
  constructor
  · decide
  · decide

/-- C1 amended: on every packet whose superframe index is non-zero,
byte 0 is left unchanged and bytes 1..187 are XORed with consecutive
`PRBS_LUT` entries starting one past the position where the previous
packet left off (entry `prbsIndex + i` for byte `i`), leaving the
cursor at `prbsIndex + 188`; in particular the second packet of a
session uses `PRBS_LUT[188..374]`. -/
theorem C1_scramble_nonboundary (s : ScramblerState) (ts : List Nat)
    (hc : s.packetCounter ≠ 0) (hidx : s.prbsIndex + 187 ≤ 1502)
    (hlen : ts.length = 188) :
    (ScrambleTS s ts).1.getD 0 0 = ts.getD 0 0 ∧
    (∀ i, 1 ≤ i → i < 188 →
      (ScrambleTS s ts).1.getD i 0 =
        ts.getD i 0 ^^^ PrbsLUT.getD (s.prbsIndex + i) 0) ∧
    (ScrambleTS s ts).2.prbsIndex = s.prbsIndex + 188 ∧
    (ScrambleTS s ts).2.packetCounter = (s.packetCounter + 1) % 8 := by
  match ts, hlen with
  | b0 :: payload, hlen =>
      have hplen : payload.length = 187 := by simpa using hlen
      have hunfold : ScrambleTS s (b0 :: payload) =
          (b0 :: (scrambleLoop (s.prbsIndex + 1) payload).1,
            ⟨(scrambleLoop (s.prbsIndex + 1) payload).2,
              (s.packetCounter + 1) % 8⟩) := by
        show (if s.packetCounter = 0 then _ else _) = _
        rw [if_neg hc]
      obtain ⟨hl1, hl2⟩ := scrambleLoopSpec payload (s.prbsIndex + 1)
        (by omega)
      rw [hunfold]
      refine ⟨rfl, ?_, ?_, rfl⟩
      · intro i h1 h188
        match i, h1 with
        | k + 1, _ =>
            show (scrambleLoop (s.prbsIndex + 1) payload).1.getD k 0 =
              payload.getD k 0 ^^^ PrbsLUT.getD (s.prbsIndex + (k + 1)) 0
            rw [hl2 k (by omega)]
            congr 2
            omega
      · show (scrambleLoop (s.prbsIndex + 1) payload).2 = s.prbsIndex + 188
        rw [hl1]
        omega

/-- Witness for C1's amended theorem: the second packet of a fresh
session (state left by the first packet) satisfies its hypotheses. -/
theorem C1_scramble_nonboundary_witness :
    ((ScrambleTS ⟨0, 0⟩ (0x47 :: List.replicate 187 0)).2.packetCounter ≠ 0 ∧
      (ScrambleTS ⟨0, 0⟩ (0x47 :: List.replicate 187 0)).2.prbsIndex + 187 ≤ 1502 ∧
      (0x47 :: List.replicate 187 0).length = 188) ∧
    ((ScrambleTS (ScrambleTS ⟨0, 0⟩ (0x47 :: List.replicate 187 0)).2
        (0x47 :: List.replicate 187 0)).1.getD 0 0 =
      (0x47 :: List.replicate 187 0).getD 0 0 ∧
      (∀ i, 1 ≤ i → i < 188 →
        (ScrambleTS (ScrambleTS ⟨0, 0⟩ (0x47 :: List.replicate 187 0)).2
            (0x47 :: List.replicate 187 0)).1.getD i 0 =
          (0x47 :: List.replicate 187 0).getD i 0 ^^^
            PrbsLUT.getD ((ScrambleTS ⟨0, 0⟩
              (0x47 :: List.replicate 187 0)).2.prbsIndex + i) 0) ∧
      (ScrambleTS (ScrambleTS ⟨0, 0⟩ (0x47 :: List.replicate 187 0)).2
          (0x47 :: List.replicate 187 0)).2.prbsIndex =
        (ScrambleTS ⟨0, 0⟩ (0x47 :: List.replicate 187 0)).2.prbsIndex + 188 ∧
      (ScrambleTS (ScrambleTS ⟨0, 0⟩ (0x47 :: List.replicate 187 0)).2
          (0x47 :: List.replicate 187 0)).2.packetCounter =
        ((ScrambleTS ⟨0, 0⟩ (0x47 :: List.replicate 187 0)).2.packetCounter + 1) % 8) :=
  ⟨⟨by decide, by decide, by decide⟩,
    C1_scramble_nonboundary _ _ (by decide) (by decide) (by decide)⟩

/-! ### Convolutional encoder lemmas -/

theorem convBitsAppend : ∀ (l1 l2 : List Nat) (s : Nat),
    convBitsFrom s (l1 ++ l2) =
      ((convBitsFrom s l1).1 ++ (convBitsFrom (convBitsFrom s l1).2 l2).1,
        (convBitsFrom (convBitsFrom s l1).2 l2).2) := by
  intro l1
  induction l1 with
  | nil => intro l2 s; rfl
  | cons b l1 ih =>
      intro l2 s
      show (Parity (convStep s b &&& 0x4F) :: Parity (convStep s b &&& 0x6D) ::
          (convBitsFrom (convStep s b) (l1 ++ l2)).1,
        (convBitsFrom (convStep s b) (l1 ++ l2)).2) = _
      rw [ih l2 (convStep s b)]
      rfl

theorem bitFoldEq : ∀ (bits : List Nat) (acc : List Nat) (s : Nat),
    bits.foldl
      (fun st2 bit =>
        let d := ((st2.2 <<< 1) ||| bit) &&& 0x7F
        (st2.1 ++ [Parity (d &&& 0x4F), Parity (d &&& 0x6D)], d)) (acc, s) =
    (acc ++ (convBitsFrom s bits).1, (convBitsFrom s bits).2) := by
  intro bits
  induction bits with
  | nil => intro acc s; simp [convBitsFrom]
  | cons bit bits ih =>
      intro acc s
      show bits.foldl _ (acc ++ [Parity (((s <<< 1) ||| bit) &&& 0x7F &&& 0x4F),
        Parity (((s <<< 1) ||| bit) &&& 0x7F &&& 0x6D)], ((s <<< 1) ||| bit) &&& 0x7F) = _
      rw [ih]
      show (acc ++ _ ++ (convBitsFrom (convStep s bit) bits).1,
        (convBitsFrom (convStep s bit) bits).2) = _
      rw [List.append_assoc]
      rfl

/-- `ConvolutionalEncode` equals the bit-stream encoder started from
register 0 (shared refinement helper). -/
theorem convEncodeEqBits (p : List Nat) :
    ConvolutionalEncode p = (convBitsFrom 0 (packetBits p)).1 := by
  suffices h : ∀ (p : List Nat) (acc : List Nat) (s : Nat),
      p.foldl
        (fun st b =>
          (byteBits b).foldl
            (fun st2 bit =>
              let d := ((st2.2 <<< 1) ||| bit) &&& 0x7F
              (st2.1 ++ [Parity (d &&& 0x4F), Parity (d &&& 0x6D)], d))
            st)
        (acc, s) =
      (acc ++ (convBitsFrom s (packetBits p)).1, (convBitsFrom s (packetBits p)).2) by
    show (p.foldl _ (([] : List Nat), 0)).1 = _
    rw [h p [] 0]
    simp
  intro p
  induction p with
  | nil => intro acc s; simp [packetBits, convBitsFrom]
  | cons b p ih =>
      intro acc s
      show p.foldl _ ((byteBits b).foldl _ (acc, s)) = _
      rw [bitFoldEq (byteBits b) acc s, ih]
      have happ := convBitsAppend (byteBits b) (packetBits p) s
      show (acc ++ (convBitsFrom s (byteBits b)).1 ++
          (convBitsFrom (convBitsFrom s (byteBits b)).2 (packetBits p)).1,
        (convBitsFrom (convBitsFrom s (byteBits b)).2 (packetBits p)).2) =
        (acc ++ (convBitsFrom s (byteBits b ++ packetBits p)).1,
          (convBitsFrom s (byteBits b ++ packetBits p)).2)
      rw [happ, List.append_assoc]

theorem convBitsSnd : ∀ (bits : List Nat) (s : Nat),
    (convBitsFrom s bits).2 = List.foldl convStep s bits := by
  intro bits
  induction bits with
  | nil => intro s; rfl
  | cons b bits ih => intro s; exact ih (convStep s b)

theorem byteBits255 : byteBits 255 = List.replicate 8 1 := by decide

theorem packetBits255 : ∀ n,
    packetBits (List.replicate n 255) = List.replicate (8 * n) 1 := by
  intro n
  induction n with
  | zero => rfl
  | succ n ih =>
      show byteBits 255 ++ packetBits (List.replicate n 255) = _
      rw [byteBits255, ih, ← List.replicate_add]
      congr 1
      omega

theorem convStepOneFix : convStep 127 1 = 127 := by decide

theorem foldlOnesFix : ∀ n, List.foldl convStep 127 (List.replicate n 1) = 127 := by
  intro n
  induction n with
  | zero => rfl
  | succ n ih =>
      show List.foldl convStep (convStep 127 1) (List.replicate n 1) = 127
      rw [convStepOneFix]
      exact ih

theorem convOnesState : List.foldl convStep 0 (List.replicate 1632 1) = 127 := by
  have hsplit : (1632 : Nat) = 7 + 1625 := by omega
  rw [hsplit, List.replicate_add, List.foldl_append]
  have h7 : List.foldl convStep 0 (List.replicate 7 1) = 127 := by decide
  rw [h7]
  exact foldlOnesFix 1625

/-- C2 as stated is false on the code: the register left by a packet of
204 0xFF bytes is 127, but the next `ConvolutionalEncode` call starts
from register 0 again, and starting from 0 rather than 127 changes the
code bits of the next packet. -/
theorem C2_counterexample :
    (convBitsFrom 0 (packetBits (List.replicate 204 255))).2 = 127 ∧
    ConvolutionalEncode (List.replicate 204 0) =
      (convBitsFrom 0 (packetBits (List.replicate 204 0))).1 ∧
    (convBitsFrom 0 (packetBits (List.replicate 204 0))).1.take 4 ≠
      (convBitsFrom 127 (packetBits (List.replicate 204 0))).1.take 4 := by
  refine ⟨?_, convEncodeEqBits _, ?_⟩
  · rw [convBitsSnd, packetBits255]
    show List.foldl convStep 0 (List.replicate 1632 1) = 127
    exact convOnesState
  · decide

/-- C2 amended: the 7-bit register is initialised to 0 at the start of
every `ConvolutionalEncode` call (`delay := uint16(0)`), so the state
left by the previous packet is discarded and every packet is encoded
from register 0. -/
theorem C2_conv_state_reset :
    ∀ p : List Nat, ConvolutionalEncode p = (convBitsFrom 0 (packetBits p)).1 :=
  fun p => convEncodeEqBits p

/-- C4 as stated is false: the left-shifting register rule with the
literal generators 0x79/0x5B does not produce the reference dibits —
on input bits 1,0,0,... its second dibit is (0,1), not (1,0). -/
theorem C4_counterexample :
    (claimLeftRule 0 [1, 0, 0, 0, 0, 0, 0, 0, 0]).getD 2 0 = 0 ∧
    (claimLeftRule 0 [1, 0, 0, 0, 0, 0, 0, 0, 0]).getD 3 0 = 1 ∧
    ¬ ((claimLeftRule 0 [1, 0, 0, 0, 0, 0, 0, 0, 0]).getD 2 0 = 1 ∧
        (claimLeftRule 0 [1, 0, 0, 0, 0, 0, 0, 0, 0]).getD 3 0 = 0) := by
  refine ⟨by decide, by decide, ?_⟩
  decide

/-- C4 amended: with the left-shifting register the masks are the
bit-reversed generators 0x4F/0x6D, equivalent to a right-shifting
register with G1 = 0x79 and G2 = 0x5B; on input bits 1,0,0,0,0,0,0,0,0
the implementation produces the reference dibits (1,1), (1,0), (1,1),
... and matches the right-shift reference's sixteen bits exactly. -/
theorem C4_conv_reference :
    (ConvolutionalEncode (0x80 :: List.replicate 203 0)).take 16 =
      (rightShiftRule 0 [1, 0, 0, 0, 0, 0, 0, 0, 0]).take 16 ∧
    (ConvolutionalEncode (0x80 :: List.replicate 203 0)).take 6 =
      [1, 1, 1, 0, 1, 1] := by
  rw [convEncodeEqBits]
  constructor
  · decide
  · decide

/-! ### Linearity of the convolutional encoder (C8) -/

theorem parityXor (x y : Nat) : Parity (x ^^^ y) = Parity x ^^^ Parity y := by
  have step : ∀ k a b : Nat, (a ^^^ b) ^^^ ((a ^^^ b) >>> k) =
      (a ^^^ (a >>> k)) ^^^ (b ^^^ (b >>> k)) := by
    intro k a b
    rw [xorShiftRight]
    exact xorFour a b (a >>> k) (b >>> k)
  simp only [Parity]
  rw [step 8 x y, step 4, step 2, step 1, Nat.and_xor_distrib_right]

theorem orBitEqXor (x b : Nat) (hb : b ≤ 1) : (x <<< 1) ||| b = (x <<< 1) ^^^ b := by
  match b, hb with
  | 0, _ => simp
  | 1, _ =>
      apply Nat.eq_of_testBit_eq
      intro i
      match i with
      | 0 =>
          rw [Nat.testBit_or, Nat.testBit_xor]
          have hx0 : (x <<< 1).testBit 0 = false := by
            simp [Nat.testBit_shiftLeft]
          rw [hx0]
          decide
      | i + 1 =>
          rw [Nat.testBit_or, Nat.testBit_xor]
          have h1 : Nat.testBit 1 (i + 1) = false := by
            simp [Nat.testBit_succ]
          rw [h1]
          cases (x <<< 1).testBit (i + 1) <;> rfl

theorem convStepXor (sa sb xa xb : Nat) (ha : xa ≤ 1) (hb : xb ≤ 1) :
    convStep (sa ^^^ sb) (xa ^^^ xb) = convStep sa xa ^^^ convStep sb xb := by
  have hxab : xa ^^^ xb ≤ 1 := by
    match xa, ha, xb, hb with
    | 0, _, 0, _ => decide
    | 0, _, 1, _ => decide
    | 1, _, 0, _ => decide
    | 1, _, 1, _ => decide
  unfold convStep
  rw [orBitEqXor _ _ hxab, orBitEqXor _ _ ha, orBitEqXor _ _ hb,
    xorShiftLeft, xorFour, Nat.and_xor_distrib_right]

theorem convBitsLinear : ∀ (ba bb : List Nat) (sa sb : Nat),
    ba.length = bb.length → (∀ x ∈ ba, x ≤ 1) → (∀ x ∈ bb, x ≤ 1) →
    (convBitsFrom (sa ^^^ sb) (zipXor ba bb)).1 =
      zipXor (convBitsFrom sa ba).1 (convBitsFrom sb bb).1 := by
  intro ba
  induction ba with
  | nil =>
      intro bb sa sb hlen _ _
      have : bb = [] := List.eq_nil_of_length_eq_zero hlen.symm
      subst this
      rfl
  | cons xa ba ih =>
      intro bb sa sb hlen hba hbb
      match bb with
      | [] => simp at hlen
      | xb :: bb =>
          have hxa : xa ≤ 1 := hba xa (List.mem_cons_self xa ba)
          have hxb : xb ≤ 1 := hbb xb (List.mem_cons_self xb bb)
          show Parity (convStep (sa ^^^ sb) (xa ^^^ xb) &&& 0x4F) ::
              Parity (convStep (sa ^^^ sb) (xa ^^^ xb) &&& 0x6D) ::
              (convBitsFrom (convStep (sa ^^^ sb) (xa ^^^ xb)) (zipXor ba bb)).1 = _
          rw [convStepXor sa sb xa xb hxa hxb]
          rw [Nat.and_xor_distrib_right, Nat.and_xor_distrib_right,
            parityXor, parityXor]
          rw [ih bb (convStep sa xa) (convStep sb xb) (by simpa using hlen)
            (fun y hy => hba y (List.mem_cons_of_mem xa hy))
            (fun y hy => hbb y (List.mem_cons_of_mem xb hy))]
          rfl

theorem byteBitsZip (x y : Nat) :
    byteBits (x ^^^ y) = zipXor (byteBits x) (byteBits y) := by
  have comp : ∀ k : Nat, ((x ^^^ y) >>> k) &&& 1 =
      ((x >>> k) &&& 1) ^^^ ((y >>> k) &&& 1) := by
    intro k
    rw [xorShiftRight, Nat.and_xor_distrib_right]
  have hrange : List.range 8 = [0, 1, 2, 3, 4, 5, 6, 7] := rfl
  simp only [byteBits, zipXor, hrange, List.map_cons, List.map_nil,
    List.zipWith_cons_cons, List.zipWith_nil_right]
  rw [comp, comp, comp, comp, comp, comp, comp, comp]

theorem packetBitsZip : ∀ a b : List Nat, a.length = b.length →
    packetBits (zipXor a b) = zipXor (packetBits a) (packetBits b) := by
  intro a
  induction a with
  | nil =>
      intro b hlen
      have : b = [] := List.eq_nil_of_length_eq_zero hlen.symm
      subst this
      rfl
  | cons x a ih =>
      intro b hlen
      match b with
      | [] => simp at hlen
      | y :: b =>
          show byteBits (x ^^^ y) ++ packetBits (zipXor a b) =
            zipXor (byteBits x ++ packetBits a) (byteBits y ++ packetBits b)
          rw [byteBitsZip, ih b (by simpa using hlen)]
          show zipXor (byteBits x) (byteBits y) ++ zipXor (packetBits a) (packetBits b) =
            zipXor (byteBits x ++ packetBits a) (byteBits y ++ packetBits b)
          have hbl : (byteBits x).length = (byteBits y).length := by
            simp [byteBits]
          exact (List.zipWith_append _ _ _ _ _ hbl).symm

theorem packetBitsLe : ∀ l : List Nat, ∀ x ∈ packetBits l, x ≤ 1 := by
  intro l
  induction l with
  | nil => simp [packetBits]
  | cons b l ih =>
      intro x hx
      rcases List.mem_append.mp hx with h | h
      · rcases List.mem_map.mp h with ⟨j, _, hj⟩
        rw [← hj]
        exact Nat.and_le_right
      · exact ih x h

theorem packetBitsLen : ∀ l : List Nat, (packetBits l).length = 8 * l.length := by
  intro l
  induction l with
  | nil => rfl
  | cons b l ih =>
      show (byteBits b ++ packetBits l).length = 8 * (l.length + 1)
      rw [List.length_append, ih]
      have : (byteBits b).length = 8 := by simp [byteBits]
      rw [this]
      omega

/-- C8: `ConvolutionalEncode` is linear over GF(2): encoding the
bytewise XOR of two equal-length inputs gives the elementwise XOR of
the two encodings (every call starts from the same register state 0). -/
theorem C8_conv_linear (a b : List Nat) (hlen : a.length = b.length) :
    ConvolutionalEncode (zipXor a b) =
      zipXor (ConvolutionalEncode a) (ConvolutionalEncode b) := by
  rw [convEncodeEqBits, convEncodeEqBits, convEncodeEqBits,
    packetBitsZip a b hlen]
  have h := convBitsLinear (packetBits a) (packetBits b) 0 0
    (by rw [packetBitsLen, packetBitsLen, hlen])
    (packetBitsLe a) (packetBitsLe b)
  simpa using h

/-- Witness for C8 at a concrete pair of equal-length inputs. -/
theorem C8_conv_linear_witness :
    ([0x12, 0x34] : List Nat).length = ([0xFF, 0x01] : List Nat).length ∧
    ConvolutionalEncode (zipXor [0x12, 0x34] [0xFF, 0x01]) =
      zipXor (ConvolutionalEncode [0x12, 0x34]) (ConvolutionalEncode [0xFF, 0x01]) :=
  ⟨rfl, C8_conv_linear [0x12, 0x34] [0xFF, 0x01] rfl⟩

/-! ### QPSK mapping (C9) -/

/-- C9: the symbol index is `(b1 << 1) | b0` with `b1` taken first, the
four points of `QPSKSymbolMap` are (+1/√2,+1/√2), (+1/√2,-1/√2),
(-1/√2,+1/√2), (-1/√2,-1/√2) for s = 0,1,2,3, and every mapped point
has magnitude 1. -/
theorem C9_qpsk_map (b1 b0 : Nat) (h1 : b1 ≤ 1) (h0 : b0 ≤ 1) :
    streamSym b1 b0 = 2 * b1 + b0 ∧
    QPSKSymbolMapNum 0 = (1, 1) ∧ QPSKSymbolMapNum 1 = (1, -1) ∧
    QPSKSymbolMapNum 2 = (-1, 1) ∧ QPSKSymbolMapNum 3 = (-1, -1) ∧
    (((QPSKSymbolMapNum (streamSym b1 b0)).1 : ℝ) / Real.sqrt 2) ^ 2 +
      (((QPSKSymbolMapNum (streamSym b1 b0)).2 : ℝ) / Real.sqrt 2) ^ 2 = 1 := by
  have hs : Real.sqrt 2 ^ 2 = 2 := Real.sq_sqrt (by norm_num)
  have hne : Real.sqrt 2 ≠ 0 := by positivity
  have hmag : ∀ a b : Int, a = 1 ∨ a = -1 → b = 1 ∨ b = -1 →
      ((a : ℝ) / Real.sqrt 2) ^ 2 + ((b : ℝ) / Real.sqrt 2) ^ 2 = 1 := by
    intro a b ha hb
    have ha2 : ((a : ℝ)) ^ 2 = 1 := by rcases ha with h | h <;> rw [h] <;> norm_num
    have hb2 : ((b : ℝ)) ^ 2 = 1 := by rcases hb with h | h <;> rw [h] <;> norm_num
    rw [div_pow, div_pow, ha2, hb2, hs]
    norm_num
  interval_cases b1 <;> interval_cases b0 <;>
    refine ⟨by decide, rfl, rfl, rfl, rfl, ?_⟩ <;>
    · apply hmag <;> decide

/-! ### Radio fill-callback underflow policy (C7) -/

theorem wrapIdx (r n : Nat) (h : r < n) : (((r + 1) % n) + n - 1) % n = r := by
  by_cases h1 : r + 1 < n
  · rw [Nat.mod_eq_of_lt h1]
    have h2 : r + 1 + n - 1 = r + n := by omega
    rw [h2, Nat.add_mod_right, Nat.mod_eq_of_lt h]
  · have h2 : r + 1 = n := by omega
    rw [h2, Nat.mod_self]
    have h3 : 0 + n - 1 = n - 1 := by omega
    rw [h3, Nat.mod_eq_of_lt (by omega)]
    omega

/-- C7: when the fill callback finds the buffer empty (read position
equal to write position) it re-emits the sample at the slot just
before the read position — the most recently emitted sample — without
advancing the read position, and increments the underflow counter by
exactly one; the counter never decreases, and a pop that underflows
directly after any pop emits that pop's sample again. -/
theorem C7_underflow_hold (s : RadioState) (hr : s.readPos < s.buffer.length) :
    (s.readPos = s.writePos →
      (popSample s).1 =
        s.buffer.getD ((s.readPos + s.buffer.length - 1) % s.buffer.length) (0, 0) ∧
      (popSample s).2.readPos = s.readPos ∧
      (popSample s).2.writePos = s.writePos ∧
      (popSample s).2.buffer = s.buffer ∧
      (popSample s).2.underflows = s.underflows + 1) ∧
    (s.readPos ≠ s.writePos → (popSample s).2.underflows = s.underflows) ∧
    s.underflows ≤ (popSample s).2.underflows ∧
    ((popSample s).2.readPos = (popSample s).2.writePos →
      (popSample (popSample s).2).1 = (popSample s).1) := by
  by_cases hrw : s.readPos = s.writePos
  · refine ⟨fun _ => ?_, fun h => absurd hrw h, ?_, fun _ => ?_⟩
    · simp [popSample, hrw]
    · simp [popSample, hrw]
    · simp [popSample, hrw]
  · refine ⟨fun h => absurd h hrw, fun _ => ?_, ?_, fun h2 => ?_⟩
    · simp [popSample, hrw]
    · simp [popSample, hrw]
    · have hs2 : (popSample s).2 =
          { s with readPos := (s.readPos + 1) % s.buffer.length } := by
        simp [popSample, hrw]
      have hfst : (popSample s).1 = s.buffer.getD s.readPos (0, 0) := by
        simp [popSample, hrw]
      rw [hs2] at h2 ⊢
      rw [hfst]
      have h2' : (s.readPos + 1) % s.buffer.length = s.writePos := h2
      have h3 : (popSample { s with readPos := (s.readPos + 1) % s.buffer.length }).1 =
          s.buffer.getD ((((s.readPos + 1) % s.buffer.length) +
            s.buffer.length - 1) % s.buffer.length) (0, 0) := by
        simp [popSample, h2']
      rw [h3, wrapIdx s.readPos s.buffer.length hr]

/-- Witness for C7 at a concrete underflowing state. -/
theorem C7_underflow_hold_witness :
    ((⟨[(5, 6), (7, 8)], 1, 1, 0⟩ : RadioState).readPos <
      (⟨[(5, 6), (7, 8)], 1, 1, 0⟩ : RadioState).buffer.length) ∧
    (((⟨[(5, 6), (7, 8)], 1, 1, 0⟩ : RadioState).readPos =
        (⟨[(5, 6), (7, 8)], 1, 1, 0⟩ : RadioState).writePos →
      (popSample ⟨[(5, 6), (7, 8)], 1, 1, 0⟩).1 =
        (⟨[(5, 6), (7, 8)], 1, 1, 0⟩ : RadioState).buffer.getD
          (((⟨[(5, 6), (7, 8)], 1, 1, 0⟩ : RadioState).readPos +
            (⟨[(5, 6), (7, 8)], 1, 1, 0⟩ : RadioState).buffer.length - 1) %
            (⟨[(5, 6), (7, 8)], 1, 1, 0⟩ : RadioState).buffer.length) (0, 0) ∧
      (popSample ⟨[(5, 6), (7, 8)], 1, 1, 0⟩).2.readPos =
        (⟨[(5, 6), (7, 8)], 1, 1, 0⟩ : RadioState).readPos ∧
      (popSample ⟨[(5, 6), (7, 8)], 1, 1, 0⟩).2.writePos =
        (⟨[(5, 6), (7, 8)], 1, 1, 0⟩ : RadioState).writePos ∧
      (popSample ⟨[(5, 6), (7, 8)], 1, 1, 0⟩).2.buffer =
        (⟨[(5, 6), (7, 8)], 1, 1, 0⟩ : RadioState).buffer ∧
      (popSample ⟨[(5, 6), (7, 8)], 1, 1, 0⟩).2.underflows =
        (⟨[(5, 6), (7, 8)], 1, 1, 0⟩ : RadioState).underflows + 1) ∧
    ((⟨[(5, 6), (7, 8)], 1, 1, 0⟩ : RadioState).readPos ≠
        (⟨[(5, 6), (7, 8)], 1, 1, 0⟩ : RadioState).writePos →
      (popSample ⟨[(5, 6), (7, 8)], 1, 1, 0⟩).2.underflows =
        (⟨[(5, 6), (7, 8)], 1, 1, 0⟩ : RadioState).underflows) ∧
    (⟨[(5, 6), (7, 8)], 1, 1, 0⟩ : RadioState).underflows ≤
      (popSample ⟨[(5, 6), (7, 8)], 1, 1, 0⟩).2.underflows ∧
    ((popSample ⟨[(5, 6), (7, 8)], 1, 1, 0⟩).2.readPos =
        (popSample ⟨[(5, 6), (7, 8)], 1, 1, 0⟩).2.writePos →
      (popSample (popSample ⟨[(5, 6), (7, 8)], 1, 1, 0⟩).2).1 =
        (popSample ⟨[(5, 6), (7, 8)], 1, 1, 0⟩).1)) :=
  ⟨by decide, C7_underflow_hold ⟨[(5, 6), (7, 8)], 1, 1, 0⟩ (by decide)⟩

/-- Witness for C3 at the all-zero 188-byte packet. -/
theorem C3_rs_encode_divisible_witness :
    (List.replicate 188 0).length = 188 ∧ (∀ x ∈ List.replicate 188 0, x < 256) ∧
    ∃ cw, Encode (List.replicate 188 0) = some cw ∧ cw.length = 204 ∧
      cw.take 188 = List.replicate 188 0 ∧ ∀ i, i < 16 → evalPoly (gpow 2 i) cw = 0 :=
  ⟨by simp, fun x hx => by rw [List.eq_of_mem_replicate hx]; omega,
    C3_rs_encode_divisible.2 (List.replicate 188 0) (by simp)
      (fun x hx => by rw [List.eq_of_mem_replicate hx]; omega)⟩

/-- Witness for C9 at the bit pair (1, 0). -/
theorem C9_qpsk_map_witness :
    (1 : Nat) ≤ 1 ∧ (0 : Nat) ≤ 1 ∧
    (streamSym 1 0 = 2 * 1 + 0 ∧
     QPSKSymbolMapNum 0 = (1, 1) ∧ QPSKSymbolMapNum 1 = (1, -1) ∧
     QPSKSymbolMapNum 2 = (-1, 1) ∧ QPSKSymbolMapNum 3 = (-1, -1) ∧
     (((QPSKSymbolMapNum (streamSym 1 0)).1 : ℝ) / Real.sqrt 2) ^ 2 +
       (((QPSKSymbolMapNum (streamSym 1 0)).2 : ℝ) / Real.sqrt 2) ^ 2 = 1) :=
  ⟨by decide, by decide, C9_qpsk_map 1 0 (by decide) (by decide)⟩

/-! ### Interleaver round-robin refinement (C5) -/

theorem getDAppendLen (o1 : List Nat) (e : Nat) (rest : List Nat) :
    (o1 ++ e :: rest).getD o1.length 0 = e := by
  induction o1 with
  | nil => rfl
  | cons a t ih => simpa using ih

theorem setAppendLen (o1 : List Nat) (e v : Nat) (rest : List Nat) :
    (o1 ++ e :: rest).set o1.length v = o1 ++ v :: rest := by
  induction o1 with
  | nil => rfl
  | cons a t ih => simp [ih]

theorem rrRunCons (p : Nat) (s : IntlvState) (b : Nat) (t : List Nat) :
    rrRun p s (b :: t) =
      ((rrStep s p b).1 :: (rrRun (p + 1) (rrStep s p b).2 t).1,
        (rrRun (p + 1) (rrStep s p b).2 t).2) := rfl

theorem rrRunLen (l : List Nat) : ∀ (p : Nat) (s : IntlvState),
    (rrRun p s l).1.length = l.length := by
  induction l with
  | nil => intro p s; rfl
  | cons b t ih => intro p s; rw [rrRunCons]; simp [ih]

theorem rrRunAppend (l1 : List Nat) : ∀ (p : Nat) (s : IntlvState) (l2 : List Nat),
    rrRun p s (l1 ++ l2) =
      ((rrRun p s l1).1 ++ (rrRun (p + l1.length) (rrRun p s l1).2 l2).1,
        (rrRun (p + l1.length) (rrRun p s l1).2 l2).2) := by
  induction l1 with
  | nil =>
      intro p s l2
      simp [rrRun]
  | cons b t ih =>
      intro p s l2
      rw [List.cons_append, rrRunCons, ih, rrRunCons]
      simp only [List.length_cons]
      have harith : p + 1 + t.length = p + (t.length + 1) := by omega
      rw [harith]
      rfl

theorem setMapLen (fs : List (List Nat)) : ∀ (i idx b : Nat),
    (fs.set i ((fs.getD i []).set idx b)).map List.length = fs.map List.length := by
  induction fs with
  | nil => intro i idx b; rfl
  | cons f t ih =>
      intro i idx b
      cases i with
      | zero => simp
      | succ j =>
          show (f :: t.set j ((t.getD j []).set idx b)).map List.length =
            List.map List.length (f :: t)
          rw [List.map_cons, ih j idx b, List.map_cons]

theorem rrStepFifoLen (s : IntlvState) (p b : Nat) :
    (rrStep s p b).2.fifos.map List.length = s.fifos.map List.length := by
  unfold rrStep
  by_cases h : p % InterleaveDepth = 0
  · simp [h]
  · simp only [if_neg h]
    exact setMapLen s.fifos (p % InterleaveDepth) (s.idxs.getD (p % InterleaveDepth) 0) b

theorem rrRunFifoLen (l : List Nat) : ∀ (p : Nat) (s : IntlvState),
    (rrRun p s l).2.fifos.map List.length = s.fifos.map List.length := by
  induction l with
  | nil => intro p s; rfl
  | cons b t ih =>
      intro p s
      rw [rrRunCons]
      rw [show ((rrStep s p b).1 :: (rrRun (p + 1) (rrStep s p b).2 t).1,
        (rrRun (p + 1) (rrStep s p b).2 t).2).2 =
          (rrRun (p + 1) (rrStep s p b).2 t).2 from rfl]
      rw [ih, rrStepFifoLen]

theorem innerFoldEq (m : Nat) : ∀ (i k : Nat) (o1 rest : List Nat) (s : IntlvState),
    o1.length = k → 1 ≤ i → (∀ j, j < m → i + j = (k + j) % InterleaveDepth) →
    k + m ≤ RSPacketSize → m ≤ rest.length →
    (List.range' i m).foldl intlvInner (o1 ++ rest, k, s) =
      (o1 ++ (rrRun k s (rest.take m)).1 ++ rest.drop m, k + m,
        (rrRun k s (rest.take m)).2) := by
  induction m with
  | zero =>
      intro i k o1 rest s ho hi hj hk hr
      simp [rrRun]
  | succ m ih =>
      intro i k o1 rest s ho hi hj hk hr
      cases rest with
      | nil =>
          have h0 : m + 1 ≤ 0 := hr
          omega
      | cons b rest' =>
          have hp : k < RSPacketSize := by omega
          have hi0 : i = k % InterleaveDepth := by
            have h0 := hj 0 (by omega)
            simpa using h0
          have hne : ¬ k % InterleaveDepth = 0 := by
            have h12 : i = k % 12 := hi0
            omega
          rw [List.range'_succ, List.foldl_cons]
          have hget : (o1 ++ b :: rest').getD k 0 = b := by
            rw [← ho]; exact getDAppendLen o1 b rest'
          have hset : (o1 ++ b :: rest').set k
                ((s.fifos.getD i []).getD (s.idxs.getD i 0) 0) =
              o1 ++ ((s.fifos.getD i []).getD (s.idxs.getD i 0) 0) :: rest' := by
            rw [← ho]; exact setAppendLen o1 b _ rest'
          have hrr : rrStep s k b =
              ((s.fifos.getD i []).getD (s.idxs.getD i 0) 0,
                (⟨s.fifos.set i ((s.fifos.getD i []).set (s.idxs.getD i 0) b),
                  s.idxs.set i ((s.idxs.getD i 0 + 1) % (s.fifos.getD i []).length)⟩ :
                  IntlvState)) := by
            show (if k % InterleaveDepth = 0 then (b, s)
              else ((s.fifos.getD (k % InterleaveDepth) []).getD
                  (s.idxs.getD (k % InterleaveDepth) 0) 0,
                (⟨s.fifos.set (k % InterleaveDepth)
                    ((s.fifos.getD (k % InterleaveDepth) []).set
                      (s.idxs.getD (k % InterleaveDepth) 0) b),
                  s.idxs.set (k % InterleaveDepth)
                    ((s.idxs.getD (k % InterleaveDepth) 0 + 1) %
                      (s.fifos.getD (k % InterleaveDepth) []).length)⟩ :
                  IntlvState))) = _
            rw [if_neg hne, ← hi0]
          have hstep : intlvInner (o1 ++ b :: rest', k, s) i =
              (o1 ++ (rrStep s k b).1 :: rest', k + 1, (rrStep s k b).2) := by
            show (if k < RSPacketSize then
                ((o1 ++ b :: rest').set k
                    ((s.fifos.getD i []).getD (s.idxs.getD i 0) 0), k + 1,
                  (⟨s.fifos.set i ((s.fifos.getD i []).set (s.idxs.getD i 0)
                      ((o1 ++ b :: rest').getD k 0)),
                    s.idxs.set i ((s.idxs.getD i 0 + 1) %
                      (s.fifos.getD i []).length)⟩ : IntlvState))
              else (o1 ++ b :: rest', k, s)) =
              (o1 ++ (rrStep s k b).1 :: rest', k + 1, (rrStep s k b).2)
            rw [if_pos hp, hget, hset, hrr]
          rw [hstep]
          have happ : o1 ++ (rrStep s k b).1 :: rest' =
              (o1 ++ [(rrStep s k b).1]) ++ rest' := by simp
          rw [happ]
          have ho2 : (o1 ++ [(rrStep s k b).1]).length = k + 1 := by simp [ho]
          have hj2 : ∀ j, j < m → i + 1 + j = (k + 1 + j) % InterleaveDepth := by
            intro j hjm
            have h1 := hj (j + 1) (by omega)
            have h2 : i + (j + 1) = i + 1 + j := by omega
            have h3 : k + (j + 1) = k + 1 + j := by omega
            rw [h2, h3] at h1
            exact h1
          rw [ih (i + 1) (k + 1) (o1 ++ [(rrStep s k b).1]) rest' (rrStep s k b).2 ho2
            (by omega) hj2 (by omega) (by simpa using hr)]
          have ht : (b :: rest').take (m + 1) = b :: rest'.take m := rfl
          have hd : (b :: rest').drop (m + 1) = rest'.drop m := rfl
          rw [ht, hd, rrRunCons]
          have ha2 : k + 1 + m = k + (m + 1) := by omega
          rw [ha2]
          simp [List.append_assoc]

theorem outerStepEq (k : Nat) (o1 rest : List Nat) (s : IntlvState)
    (ho : o1.length = k) (hk12 : k % 12 = 0) (hk : k + 12 ≤ 204)
    (hr : 12 ≤ rest.length) :
    intlvOuter (o1 ++ rest, k, s) =
      (o1 ++ (rrRun k s (rest.take 12)).1 ++ rest.drop 12, k + 12,
        (rrRun k s (rest.take 12)).2) := by
  cases rest with
  | nil =>
      have h0 : (12 : Nat) ≤ 0 := hr
      omega
  | cons b rest' =>
      have h1 : intlvOuter (o1 ++ b :: rest', k, s) =
          (List.range' 1 11).foldl intlvInner (o1 ++ b :: rest', k + 1, s) := rfl
      rw [h1]
      have happ : o1 ++ b :: rest' = (o1 ++ [b]) ++ rest' := by simp
      rw [happ]
      have hr' : (11 : Nat) ≤ rest'.length := by
        have := hr
        simp at this
        omega
      rw [innerFoldEq 11 1 (k + 1) (o1 ++ [b]) rest' s (by simp [ho]) (by omega)
        (by
          intro j hj
          show 1 + j = (k + 1 + j) % 12
          omega)
        (by show k + 1 + 11 ≤ 204; omega) hr']
      have ht : (b :: rest').take 12 = b :: rest'.take 11 := rfl
      have hd : (b :: rest').drop 12 = rest'.drop 11 := rfl
      rw [ht, hd, rrRunCons]
      have hpass : rrStep s k b = (b, s) := by
        have hk12i : k % InterleaveDepth = 0 := hk12
        show (if k % InterleaveDepth = 0 then (b, s) else _) = (b, s)
        rw [if_pos hk12i]
      rw [hpass]
      have ha : k + 1 + 11 = k + 12 := by omega
      rw [ha]
      simp [List.append_assoc]

theorem outerIterEq (t : Nat) : ∀ (k : Nat) (o1 rest : List Nat) (s : IntlvState),
    o1.length = k → k % 12 = 0 → k + 12 * t ≤ 204 → 12 * t ≤ rest.length →
    applyN t intlvOuter (o1 ++ rest, k, s) =
      (o1 ++ (rrRun k s (rest.take (12 * t))).1 ++ rest.drop (12 * t), k + 12 * t,
        (rrRun k s (rest.take (12 * t))).2) := by
  induction t with
  | zero =>
      intro k o1 rest s ho hk12 hk hr
      simp [applyN, rrRun]
  | succ t ih =>
      intro k o1 rest s ho hk12 hk hr
      have h1 : applyN (t + 1) intlvOuter (o1 ++ rest, k, s) =
          applyN t intlvOuter (intlvOuter (o1 ++ rest, k, s)) := rfl
      rw [h1, outerStepEq k o1 rest s ho hk12 (by omega) (by omega)]
      have hassoc : o1 ++ (rrRun k s (rest.take 12)).1 ++ rest.drop 12 =
          (o1 ++ (rrRun k s (rest.take 12)).1) ++ rest.drop 12 := by
        simp [List.append_assoc]
      rw [hassoc]
      have hlen1 : (rest.take 12).length = 12 := by
        rw [List.length_take]; omega
      have ho2 : (o1 ++ (rrRun k s (rest.take 12)).1).length = k + 12 := by
        rw [List.length_append, rrRunLen, hlen1, ho]
      rw [ih (k + 12) (o1 ++ (rrRun k s (rest.take 12)).1) (rest.drop 12)
        (rrRun k s (rest.take 12)).2 ho2 (by omega) (by omega)
        (by rw [List.length_drop]; omega)]
      have htake : rest.take (12 * (t + 1)) = rest.take 12 ++ (rest.drop 12).take (12 * t) := by
        have h2 : 12 * (t + 1) = 12 + 12 * t := by ring
        rw [h2, List.take_add]
      have hdrop : (rest.drop 12).drop (12 * t) = rest.drop (12 * (t + 1)) := by
        rw [List.drop_drop]
        congr 1
        ring
      rw [htake, rrRunAppend, hlen1, hdrop]
      have harr : k + 12 + 12 * t = k + 12 * (t + 1) := by ring
      rw [harr]
      simp [List.append_assoc]

theorem interleaveEqRR (s : IntlvState) (l : List Nat) (hl : l.length = 204) :
    Interleave s l = ((rrRun 0 s l).1, (rrRun 0 s l).2) := by
  have hout0 : l.take RSPacketSize ++ List.replicate (RSPacketSize - l.length) 0 = l := by
    rw [hl]
    show l.take 204 ++ List.replicate (204 - 204) 0 = l
    have h1 : l.take 204 = l := List.take_of_length_le (by omega)
    rw [h1]
    simp
  have h2 : Interleave s l =
      ((applyN 17 intlvOuter (l, 0, s)).1, (applyN 17 intlvOuter (l, 0, s)).2.2) := by
    show ((applyN (RSPacketSize / InterleaveDepth) intlvOuter
        (l.take RSPacketSize ++ List.replicate (RSPacketSize - l.length) 0, 0, s)).1,
      (applyN (RSPacketSize / InterleaveDepth) intlvOuter
        (l.take RSPacketSize ++ List.replicate (RSPacketSize - l.length) 0, 0, s)).2.2) = _
    rw [hout0]
    rfl
  rw [h2]
  have h3 := outerIterEq 17 0 [] l s rfl (by omega) (by omega) (by omega)
  rw [show ([] : List Nat) ++ l = l from rfl] at h3
  rw [h3]
  have ht : l.take (12 * 17) = l := by
    rw [show (12 * 17 : Nat) = 204 from rfl]
    exact List.take_of_length_le (by omega)
  have hd : l.drop (12 * 17) = ([] : List Nat) := by
    rw [show (12 * 17 : Nat) = 204 from rfl]
    exact List.drop_eq_nil_of_le (by omega)
  rw [ht, hd]
  simp

/-- C5: for every 204-byte packet and every interleaver state,
`Interleave` computes exactly the round-robin map `rrRun`: input
position `p` goes to branch `p mod 12` (`rrStep`), branch 0 passes the
byte through unchanged, and branch `i > 0` emits the byte at its FIFO
cursor, stores the input byte in that slot and advances the cursor
modulo the FIFO length; each output byte is the `rrStep` emission at
its position given the state reached after the previous positions, the
FIFO lengths never change across a call, and the initial FIFOs built by
`NewDVBSEncoder` have lengths 17·i for branches i = 0..11. -/
theorem C5_interleaver_round_robin (s : IntlvState) (l : List Nat)
    (hl : l.length = 204) :
    (Interleave s l).1 = (rrRun 0 s l).1 ∧
    (Interleave s l).2 = (rrRun 0 s l).2 ∧
    (∀ p, p < 204 →
      (Interleave s l).1.getD p 0 =
        (rrStep (rrRun 0 s (l.take p)).2 p (l.getD p 0)).1) ∧
    (Interleave s l).2.fifos.map List.length = s.fifos.map List.length ∧
    interleaverInit.fifos.map List.length =
      (List.range InterleaveDepth).map (fun i => 17 * i) := by
  have heq := interleaveEqRR s l hl
  refine ⟨by rw [heq], by rw [heq], ?_, ?_, ?_⟩
  · intro p hp
    rw [heq]
    show (rrRun 0 s l).1.getD p 0 =
      (rrStep (rrRun 0 s (l.take p)).2 p (l.getD p 0)).1
    have hplen : p < l.length := by omega
    have hsplit : l = l.take p ++ l.getD p 0 :: l.drop (p + 1) := by
      rw [List.getD_eq_getElem l 0 hplen, ← List.drop_eq_getElem_cons hplen]
      exact (List.take_append_drop p l).symm
    conv_lhs => rw [hsplit]
    rw [rrRunAppend]
    have hlen : (l.take p).length = p := by
      rw [List.length_take]; omega
    rw [hlen, Nat.zero_add]
    have hA : (rrRun 0 s (l.take p)).1.length = p := by
      rw [rrRunLen, hlen]
    have hfin := getDAppendLen (rrRun 0 s (l.take p)).1
      (rrStep (rrRun 0 s (l.take p)).2 p (l.getD p 0)).1
      (rrRun (p + 1) (rrStep (rrRun 0 s (l.take p)).2 p (l.getD p 0)).2
        (l.drop (p + 1))).1
    rw [hA] at hfin
    exact hfin
  · rw [heq]
    exact rrRunFifoLen l 0 s
  · rfl

/-- Witness for C5 at the zero state and the all-zero 204-byte packet. -/
theorem C5_interleaver_round_robin_witness :
    (List.replicate 204 0).length = 204 ∧
    ((Interleave interleaverInit (List.replicate 204 0)).1 =
        (rrRun 0 interleaverInit (List.replicate 204 0)).1 ∧
      (Interleave interleaverInit (List.replicate 204 0)).2 =
        (rrRun 0 interleaverInit (List.replicate 204 0)).2 ∧
      (∀ p, p < 204 →
        (Interleave interleaverInit (List.replicate 204 0)).1.getD p 0 =
          (rrStep (rrRun 0 interleaverInit ((List.replicate 204 0).take p)).2 p
            ((List.replicate 204 0).getD p 0)).1) ∧
      (Interleave interleaverInit (List.replicate 204 0)).2.fifos.map List.length =
        interleaverInit.fifos.map List.length ∧
      interleaverInit.fifos.map List.length =
        (List.range InterleaveDepth).map (fun i => 17 * i)) :=
  ⟨by simp, C5_interleaver_round_robin interleaverInit (List.replicate 204 0) (by simp)⟩

/-! ### Frame lemmas for the slice store (C10) -/

theorem setGetDNe (l : List (List Nat)) : ∀ (p q : Nat) (v : List Nat), q ≠ p →
    (l.set p v).getD q [] = l.getD q [] := by
  induction l with
  | nil => intro p q v hne; rfl
  | cons a t ih =>
      intro p q v hne
      cases p with
      | zero =>
          cases q with
          | zero => exact absurd rfl hne
          | succ j => rfl
      | succ p2 =>
          cases q with
          | zero => rfl
          | succ j => exact ih p2 j v (by omega)

theorem hwriteNe (h : Heap) (p i v q : Nat) (hne : q ≠ p) :
    (hwrite h p i v).getD q [] = h.getD q [] :=
  setGetDNe h p q _ hne

theorem hwriteLen (h : Heap) (p i v : Nat) : (hwrite h p i v).length = h.length := by
  simp [hwrite]

theorem getDAppendLt (l l2 : List (List Nat)) (q : Nat) (hq : q < l.length) :
    (l ++ l2).getD q [] = l.getD q [] := by
  induction l generalizing q with
  | nil => simp at hq
  | cons a t ih =>
      cases q with
      | zero => rfl
      | succ j => exact ih j (by simp at hq; omega)

theorem hcopyPres (n : Nat) : ∀ (h : Heap) (dst d0 src s0 q : Nat), q ≠ dst →
    (hcopy h dst d0 src s0 n).getD q [] = h.getD q [] := by
  induction n with
  | zero => intro h dst d0 src s0 q hne; rfl
  | succ n ih =>
      intro h dst d0 src s0 q hne
      show (hcopy (hwrite h dst d0 (hread h src s0)) dst (d0 + 1) src (s0 + 1) n).getD q [] =
        h.getD q []
      rw [ih _ dst _ _ _ q hne]
      exact hwriteNe h dst d0 _ q hne

theorem hcopyLen (n : Nat) : ∀ (h : Heap) (dst d0 src s0 : Nat),
    (hcopy h dst d0 src s0 n).length = h.length := by
  induction n with
  | zero => intro h dst d0 src s0; rfl
  | succ n ih =>
      intro h dst d0 src s0
      show (hcopy (hwrite h dst d0 (hread h src s0)) dst (d0 + 1) src (s0 + 1) n).length =
        h.length
      rw [ih, hwriteLen]

theorem scrambleStoreGoPres (n : Nat) : ∀ (h : Heap) (sid i idx q : Nat), q ≠ sid →
    ((scrambleStoreGo h sid i idx n).1).getD q [] = h.getD q [] := by
  induction n with
  | zero => intro h sid i idx q hne; rfl
  | succ n ih =>
      intro h sid i idx q hne
      show ((scrambleStoreGo
          (hwrite h sid i (hread h sid i ^^^ PrbsLUT.getD (if idx ≥ 1503 then 0 else idx) 0))
          sid (i + 1) ((if idx ≥ 1503 then 0 else idx) + 1) n).1).getD q [] = h.getD q []
      rw [ih _ sid _ _ q hne]
      exact hwriteNe h sid i _ q hne

theorem scrambleStoreGoLen (n : Nat) : ∀ (h : Heap) (sid i idx : Nat),
    ((scrambleStoreGo h sid i idx n).1).length = h.length := by
  induction n with
  | zero => intro h sid i idx; rfl
  | succ n ih =>
      intro h sid i idx
      show ((scrambleStoreGo
          (hwrite h sid i (hread h sid i ^^^ PrbsLUT.getD (if idx ≥ 1503 then 0 else idx) 0))
          sid (i + 1) ((if idx ≥ 1503 then 0 else idx) + 1) n).1).length = h.length
      rw [ih, hwriteLen]

theorem rsDivInnerPres (gs : List Nat) : ∀ (h : Heap) (tid pos coef q : Nat), q ≠ tid →
    (rsDivInner h tid pos coef gs).getD q [] = h.getD q [] := by
  induction gs with
  | nil => intro h tid pos coef q hne; rfl
  | cons g gs ih =>
      intro h tid pos coef q hne
      show (rsDivInner (hwrite h tid pos (hread h tid pos ^^^ gfMul g coef))
          tid (pos + 1) coef gs).getD q [] = h.getD q []
      rw [ih _ tid _ _ q hne]
      exact hwriteNe h tid pos _ q hne

theorem rsDivInnerLen (gs : List Nat) : ∀ (h : Heap) (tid pos coef : Nat),
    (rsDivInner h tid pos coef gs).length = h.length := by
  induction gs with
  | nil => intro h tid pos coef; rfl
  | cons g gs ih =>
      intro h tid pos coef
      show (rsDivInner (hwrite h tid pos (hread h tid pos ^^^ gfMul g coef))
          tid (pos + 1) coef gs).length = h.length
      rw [ih, hwriteLen]

theorem rsDivLoopPres (n : Nat) : ∀ (h : Heap) (tid i q : Nat), q ≠ tid →
    (rsDivLoop h tid i n).getD q [] = h.getD q [] := by
  induction n with
  | zero => intro h tid i q hne; rfl
  | succ n ih =>
      intro h tid i q hne
      show (rsDivLoop (if hread h tid i = 0 then h
          else rsDivInner h tid (i + 1) (hread h tid i) generatorPoly)
          tid (i + 1) n).getD q [] = h.getD q []
      rw [ih _ tid _ q hne]
      by_cases hc : hread h tid i = 0
      · rw [if_pos hc]
      · rw [if_neg hc]
        exact rsDivInnerPres generatorPoly h tid (i + 1) (hread h tid i) q hne

theorem rsDivLoopLen (n : Nat) : ∀ (h : Heap) (tid i : Nat),
    (rsDivLoop h tid i n).length = h.length := by
  induction n with
  | zero => intro h tid i; rfl
  | succ n ih =>
      intro h tid i
      show (rsDivLoop (if hread h tid i = 0 then h
          else rsDivInner h tid (i + 1) (hread h tid i) generatorPoly)
          tid (i + 1) n).length = h.length
      rw [ih]
      by_cases hc : hread h tid i = 0
      · rw [if_pos hc]
      · rw [if_neg hc]
        exact rsDivInnerLen generatorPoly h tid (i + 1) (hread h tid i)

theorem intlvInnerStorePres (oid : Nat) (h : Heap) (p : Nat) (s : IntlvState) (i q : Nat)
    (hne : q ≠ oid) :
    ((intlvInnerStore oid (h, p, s) i).1).getD q [] = h.getD q [] := by
  show ((if p < RSPacketSize then
      (hwrite h oid p ((s.fifos.getD i []).getD (s.idxs.getD i 0) 0), p + 1,
        (⟨s.fifos.set i ((s.fifos.getD i []).set (s.idxs.getD i 0) (hread h oid p)),
          s.idxs.set i ((s.idxs.getD i 0 + 1) % (s.fifos.getD i []).length)⟩ : IntlvState))
    else (h, p, s)).1).getD q [] = h.getD q []
  by_cases hp : p < RSPacketSize
  · rw [if_pos hp]
    exact hwriteNe h oid p _ q hne
  · rw [if_neg hp]

theorem intlvInnerStoreLen (oid : Nat) (h : Heap) (p : Nat) (s : IntlvState) (i : Nat) :
    ((intlvInnerStore oid (h, p, s) i).1).length = h.length := by
  show ((if p < RSPacketSize then
      (hwrite h oid p ((s.fifos.getD i []).getD (s.idxs.getD i 0) 0), p + 1,
        (⟨s.fifos.set i ((s.fifos.getD i []).set (s.idxs.getD i 0) (hread h oid p)),
          s.idxs.set i ((s.idxs.getD i 0 + 1) % (s.fifos.getD i []).length)⟩ : IntlvState))
    else (h, p, s)).1).length = h.length
  by_cases hp : p < RSPacketSize
  · rw [if_pos hp]
    exact hwriteLen h oid p _
  · rw [if_neg hp]

theorem intlvFoldStorePres (L : List Nat) : ∀ (oid : Nat) (st : Heap × Nat × IntlvState)
    (q : Nat), q ≠ oid →
    ((L.foldl (intlvInnerStore oid) st).1).getD q [] = (st.1).getD q [] := by
  induction L with
  | nil => intro oid st q hne; rfl
  | cons x L ih =>
      intro oid st q hne
      rw [List.foldl_cons, ih oid _ q hne]
      obtain ⟨h, p, s⟩ := st
      exact intlvInnerStorePres oid h p s x q hne

theorem intlvFoldStoreLen (L : List Nat) : ∀ (oid : Nat) (st : Heap × Nat × IntlvState),
    ((L.foldl (intlvInnerStore oid) st).1).length = (st.1).length := by
  induction L with
  | nil => intro oid st; rfl
  | cons x L ih =>
      intro oid st
      rw [List.foldl_cons, ih oid _]
      obtain ⟨h, p, s⟩ := st
      exact intlvInnerStoreLen oid h p s x

theorem intlvOuterStorePres (oid : Nat) (h : Heap) (p : Nat) (s : IntlvState) (q : Nat)
    (hne : q ≠ oid) :
    ((intlvOuterStore oid (h, p, s)).1).getD q [] = h.getD q [] := by
  show (((List.range' 1 (InterleaveDepth - 1)).foldl (intlvInnerStore oid)
      (h, p + 1, s)).1).getD q [] = h.getD q []
  exact intlvFoldStorePres _ oid (h, p + 1, s) q hne

theorem intlvOuterStoreLen (oid : Nat) (h : Heap) (p : Nat) (s : IntlvState) :
    ((intlvOuterStore oid (h, p, s)).1).length = h.length := by
  show (((List.range' 1 (InterleaveDepth - 1)).foldl (intlvInnerStore oid)
      (h, p + 1, s)).1).length = h.length
  exact intlvFoldStoreLen _ oid (h, p + 1, s)

theorem applyNOuterStorePres (t : Nat) : ∀ (oid : Nat) (st : Heap × Nat × IntlvState)
    (q : Nat), q ≠ oid →
    ((applyN t (intlvOuterStore oid) st).1).getD q [] = (st.1).getD q [] := by
  induction t with
  | zero => intro oid st q hne; rfl
  | succ t ih =>
      intro oid st q hne
      show ((applyN t (intlvOuterStore oid) (intlvOuterStore oid st)).1).getD q [] =
        (st.1).getD q []
      rw [ih oid _ q hne]
      obtain ⟨h, p, s⟩ := st
      exact intlvOuterStorePres oid h p s q hne

theorem applyNOuterStoreLen (t : Nat) : ∀ (oid : Nat) (st : Heap × Nat × IntlvState),
    ((applyN t (intlvOuterStore oid) st).1).length = (st.1).length := by
  induction t with
  | zero => intro oid st; rfl
  | succ t ih =>
      intro oid st
      show ((applyN t (intlvOuterStore oid) (intlvOuterStore oid st)).1).length =
        (st.1).length
      rw [ih oid _]
      obtain ⟨h, p, s⟩ := st
      exact intlvOuterStoreLen oid h p s

theorem scrambleTSStoreFrame (h : Heap) (tsId : Nat) (s : ScramblerState) (q : Nat)
    (hq : q < h.length) :
    (ScrambleTSStore h tsId s).1.getD q [] = h.getD q [] ∧
    (ScrambleTSStore h tsId s).2.1 = h.length ∧
    (ScrambleTSStore h tsId s).1.length = h.length + 1 := by
  have hne : q ≠ h.length := by omega
  have hal2 : (halloc h TSPacketSize).2 = h.length := rfl
  have hneP : q ≠ (halloc h TSPacketSize).2 := by rw [hal2]; exact hne
  by_cases hc : s.packetCounter = 0
  · have e1 : (ScrambleTSStore h tsId s).1 =
        (scrambleStoreGo
          (hwrite (hcopy (halloc h TSPacketSize).1 (halloc h TSPacketSize).2 0 tsId 0
              TSPacketSize)
            (halloc h TSPacketSize).2 0
            (hread (hcopy (halloc h TSPacketSize).1 (halloc h TSPacketSize).2 0 tsId 0
                TSPacketSize)
              (halloc h TSPacketSize).2 0 ^^^ 0xFF))
          (halloc h TSPacketSize).2 1 0 (TSPacketSize - 1)).1 := by
      simp only [ScrambleTSStore]
      rw [if_pos hc]
    have e2 : (ScrambleTSStore h tsId s).2.1 = (halloc h TSPacketSize).2 := by
      simp only [ScrambleTSStore]
      rw [if_pos hc]
    refine ⟨?_, e2.trans hal2, ?_⟩
    · rw [e1]
      exact (scrambleStoreGoPres _ _ _ _ _ q hneP).trans
        ((hwriteNe _ _ _ _ q hneP).trans
          ((hcopyPres _ _ _ _ _ _ q hneP).trans (getDAppendLt h _ q hq)))
    · rw [e1]
      exact (scrambleStoreGoLen _ _ _ _ _).trans
        ((hwriteLen _ _ _ _).trans ((hcopyLen _ _ _ _ _ _).trans
          (by show (h ++ [List.replicate TSPacketSize 0]).length = h.length + 1; simp)))
  · have e1 : (ScrambleTSStore h tsId s).1 =
        (scrambleStoreGo
          (hcopy (halloc h TSPacketSize).1 (halloc h TSPacketSize).2 0 tsId 0 TSPacketSize)
          (halloc h TSPacketSize).2 1 (s.prbsIndex + 1) (TSPacketSize - 1)).1 := by
      simp only [ScrambleTSStore]
      rw [if_neg hc]
    have e2 : (ScrambleTSStore h tsId s).2.1 = (halloc h TSPacketSize).2 := by
      simp only [ScrambleTSStore]
      rw [if_neg hc]
    refine ⟨?_, e2.trans hal2, ?_⟩
    · rw [e1]
      exact (scrambleStoreGoPres _ _ _ _ _ q hneP).trans
        ((hcopyPres _ _ _ _ _ _ q hneP).trans (getDAppendLt h _ q hq))
    · rw [e1]
      exact (scrambleStoreGoLen _ _ _ _ _).trans
        ((hcopyLen _ _ _ _ _ _).trans
          (by show (h ++ [List.replicate TSPacketSize 0]).length = h.length + 1; simp))

theorem hallocFst (h : Heap) (n : Nat) : (halloc h n).1 = h ++ [List.replicate n 0] := rfl

theorem hallocSnd (h : Heap) (n : Nat) : (halloc h n).2 = h.length := rfl

theorem encodeStoreFrame (h : Heap) (dataId q : Nat) (hq : q < h.length) :
    (EncodeStore h dataId).1.getD q [] = h.getD q [] ∧
    (EncodeStore h dataId).2 = h.length + 1 ∧
    (EncodeStore h dataId).1.length = h.length + 2 := by
  have hne : q ≠ h.length := by omega
  have e1 : (EncodeStore h dataId).1 =
      hcopy
        (hcopy
          (halloc (rsDivLoop (hcopy (halloc h RSPacketSize).1 (halloc h RSPacketSize).2 0
              dataId 0 TSPacketSize) (halloc h RSPacketSize).2 0 TSPacketSize)
            RSPacketSize).1
          (halloc (rsDivLoop (hcopy (halloc h RSPacketSize).1 (halloc h RSPacketSize).2 0
              dataId 0 TSPacketSize) (halloc h RSPacketSize).2 0 TSPacketSize)
            RSPacketSize).2
          0 dataId 0 TSPacketSize)
        (halloc (rsDivLoop (hcopy (halloc h RSPacketSize).1 (halloc h RSPacketSize).2 0
            dataId 0 TSPacketSize) (halloc h RSPacketSize).2 0 TSPacketSize)
          RSPacketSize).2
        TSPacketSize (halloc h RSPacketSize).2 TSPacketSize 16 := by
    simp only [EncodeStore]
  have e2 : (EncodeStore h dataId).2 =
      (halloc (rsDivLoop (hcopy (halloc h RSPacketSize).1 (halloc h RSPacketSize).2 0
          dataId 0 TSPacketSize) (halloc h RSPacketSize).2 0 TSPacketSize)
        RSPacketSize).2 := by
    simp only [EncodeStore]
  simp only [hallocFst, hallocSnd] at e1 e2
  have hDlen : (rsDivLoop (hcopy (h ++ [List.replicate RSPacketSize 0]) h.length 0 dataId 0
      TSPacketSize) h.length 0 TSPacketSize).length = h.length + 1 := by
    rw [rsDivLoopLen, hcopyLen]
    simp
  have hne2 : q ≠ (rsDivLoop (hcopy (h ++ [List.replicate RSPacketSize 0]) h.length 0 dataId
      0 TSPacketSize) h.length 0 TSPacketSize).length := by omega
  refine ⟨?_, e2.trans hDlen, ?_⟩
  · rw [e1]
    exact (hcopyPres _ _ _ _ _ _ q hne2).trans
      ((hcopyPres _ _ _ _ _ _ q hne2).trans
        ((getDAppendLt _ _ q (by omega)).trans
          ((rsDivLoopPres _ _ _ _ q hne).trans
            ((hcopyPres _ _ _ _ _ _ q hne).trans (getDAppendLt h _ q hq)))))
  · rw [e1]
    exact (hcopyLen _ _ _ _ _ _).trans
      ((hcopyLen _ _ _ _ _ _).trans (by rw [List.length_append, hDlen]; simp))

theorem fstTriple (a : Heap) (b : Nat) (c : IntlvState) :
    ((a, b, c) : Heap × Nat × IntlvState).1 = a := rfl

theorem interleaveStoreFrame (h : Heap) (rsId : Nat) (s : IntlvState) (q : Nat)
    (hq : q < h.length) :
    (InterleaveStore h rsId s).1.getD q [] = h.getD q [] ∧
    (InterleaveStore h rsId s).2.1 = h.length ∧
    (InterleaveStore h rsId s).1.length = h.length + 1 := by
  have hne : q ≠ h.length := by omega
  have e1 : (InterleaveStore h rsId s).1 =
      (applyN (RSPacketSize / InterleaveDepth) (intlvOuterStore (halloc h RSPacketSize).2)
        (hcopy (halloc h RSPacketSize).1 (halloc h RSPacketSize).2 0 rsId 0 RSPacketSize,
          0, s)).1 := by
    simp only [InterleaveStore]
  have e2 : (InterleaveStore h rsId s).2.1 = (halloc h RSPacketSize).2 := by
    simp only [InterleaveStore]
  simp only [hallocFst, hallocSnd] at e1 e2
  have hp1 : ((applyN (RSPacketSize / InterleaveDepth) (intlvOuterStore h.length)
      (hcopy (h ++ [List.replicate RSPacketSize 0]) h.length 0 rsId 0 RSPacketSize,
        0, s)).1).getD q [] =
      ((hcopy (h ++ [List.replicate RSPacketSize 0]) h.length 0 rsId 0 RSPacketSize,
        0, s).1).getD q [] :=
    applyNOuterStorePres (RSPacketSize / InterleaveDepth) h.length
      (hcopy (h ++ [List.replicate RSPacketSize 0]) h.length 0 rsId 0 RSPacketSize, 0, s)
      q hne
  have hl1 : ((applyN (RSPacketSize / InterleaveDepth) (intlvOuterStore h.length)
      (hcopy (h ++ [List.replicate RSPacketSize 0]) h.length 0 rsId 0 RSPacketSize,
        0, s)).1).length =
      ((hcopy (h ++ [List.replicate RSPacketSize 0]) h.length 0 rsId 0 RSPacketSize,
        0, s).1).length :=
    applyNOuterStoreLen (RSPacketSize / InterleaveDepth) h.length
      (hcopy (h ++ [List.replicate RSPacketSize 0]) h.length 0 rsId 0 RSPacketSize, 0, s)
  refine ⟨?_, e2, ?_⟩
  · rw [e1, hp1, fstTriple, hcopyPres _ _ _ _ _ _ q hne]
    exact getDAppendLt h _ q hq
  · rw [e1, hl1, fstTriple, hcopyLen]
    simp

theorem convStoreFrame (h : Heap) (inId q : Nat) (hq : q < h.length) :
    (ConvolutionalEncodeStore h inId).1.getD q [] = h.getD q [] ∧
    (ConvolutionalEncodeStore h inId).2 = h.length ∧
    (ConvolutionalEncodeStore h inId).1.length = h.length + 1 :=
  ⟨getDAppendLt h _ q hq, rfl, by simp [ConvolutionalEncodeStore]⟩

theorem encodePacketStoreFrame (h : Heap) (tsId : Nat) (sc : ScramblerState)
    (it : IntlvState) (q : Nat) (hq : q < h.length) :
    (EncodePacketStore h tsId sc it).1.getD q [] = h.getD q [] ∧
    (EncodePacketStore h tsId sc it).2.1 = h.length + 4 ∧
    (EncodePacketStore h tsId sc it).1.length = h.length + 5 := by
  obtain ⟨p1, i1, l1⟩ := scrambleTSStoreFrame h tsId sc q hq
  obtain ⟨p2, i2, l2⟩ := encodeStoreFrame (ScrambleTSStore h tsId sc).1
    (ScrambleTSStore h tsId sc).2.1 q (by omega)
  obtain ⟨p3, i3, l3⟩ := interleaveStoreFrame
    (EncodeStore (ScrambleTSStore h tsId sc).1 (ScrambleTSStore h tsId sc).2.1).1
    (EncodeStore (ScrambleTSStore h tsId sc).1 (ScrambleTSStore h tsId sc).2.1).2 it q
    (by omega)
  obtain ⟨p4, i4, l4⟩ := convStoreFrame
    (InterleaveStore
      (EncodeStore (ScrambleTSStore h tsId sc).1 (ScrambleTSStore h tsId sc).2.1).1
      (EncodeStore (ScrambleTSStore h tsId sc).1 (ScrambleTSStore h tsId sc).2.1).2 it).1
    (InterleaveStore
      (EncodeStore (ScrambleTSStore h tsId sc).1 (ScrambleTSStore h tsId sc).2.1).1
      (EncodeStore (ScrambleTSStore h tsId sc).1 (ScrambleTSStore h tsId sc).2.1).2 it).2.1
    q (by omega)
  have eP2 : (EncodePacketStore h tsId sc it).2.1 =
      (ConvolutionalEncodeStore
        (InterleaveStore
          (EncodeStore (ScrambleTSStore h tsId sc).1 (ScrambleTSStore h tsId sc).2.1).1
          (EncodeStore (ScrambleTSStore h tsId sc).1
            (ScrambleTSStore h tsId sc).2.1).2 it).1
        (InterleaveStore
          (EncodeStore (ScrambleTSStore h tsId sc).1 (ScrambleTSStore h tsId sc).2.1).1
          (EncodeStore (ScrambleTSStore h tsId sc).1
            (ScrambleTSStore h tsId sc).2.1).2 it).2.1).2 := by
    simp only [EncodePacketStore]
  have eP1 : (EncodePacketStore h tsId sc it).1 =
      (ConvolutionalEncodeStore
        (InterleaveStore
          (EncodeStore (ScrambleTSStore h tsId sc).1 (ScrambleTSStore h tsId sc).2.1).1
          (EncodeStore (ScrambleTSStore h tsId sc).1
            (ScrambleTSStore h tsId sc).2.1).2 it).1
        (InterleaveStore
          (EncodeStore (ScrambleTSStore h tsId sc).1 (ScrambleTSStore h tsId sc).2.1).1
          (EncodeStore (ScrambleTSStore h tsId sc).1
            (ScrambleTSStore h tsId sc).2.1).2 it).2.1).1 := by
    simp only [EncodePacketStore]
  refine ⟨p4.trans (p3.trans (p2.trans p1)), ?_, ?_⟩
  · rw [eP2, i4, l3, l2, l1]
  · rw [eP1]
    rw [show (ConvolutionalEncodeStore
        (InterleaveStore
          (EncodeStore (ScrambleTSStore h tsId sc).1 (ScrambleTSStore h tsId sc).2.1).1
          (EncodeStore (ScrambleTSStore h tsId sc).1
            (ScrambleTSStore h tsId sc).2.1).2 it).1
        (InterleaveStore
          (EncodeStore (ScrambleTSStore h tsId sc).1 (ScrambleTSStore h tsId sc).2.1).1
          (EncodeStore (ScrambleTSStore h tsId sc).1
            (ScrambleTSStore h tsId sc).2.1).2 it).2.1).1.length =
      (InterleaveStore
          (EncodeStore (ScrambleTSStore h tsId sc).1 (ScrambleTSStore h tsId sc).2.1).1
          (EncodeStore (ScrambleTSStore h tsId sc).1
            (ScrambleTSStore h tsId sc).2.1).2 it).1.length + 1 from l4]
    rw [l3, l2, l1]

/-- C10: at store level no encoding stage writes the caller's input
slice: `ScrambleTSStore`, `EncodeStore`, `InterleaveStore`,
`ConvolutionalEncodeStore` and the pipeline `EncodePacketStore` each
return the id of a freshly allocated slice (an id at least the
pre-call store size, hence distinct from every existing slice), the
input slice keeps every byte, and the full pipeline preserves every
pre-existing slice of the store. -/
theorem C10_no_input_mutation (h : Heap) (tsId : Nat) (sc : ScramblerState)
    (it : IntlvState) (hts : tsId < h.length) :
    ((ScrambleTSStore h tsId sc).1.getD tsId [] = h.getD tsId [] ∧
      h.length ≤ (ScrambleTSStore h tsId sc).2.1) ∧
    ((EncodeStore h tsId).1.getD tsId [] = h.getD tsId [] ∧
      h.length ≤ (EncodeStore h tsId).2) ∧
    ((InterleaveStore h tsId it).1.getD tsId [] = h.getD tsId [] ∧
      h.length ≤ (InterleaveStore h tsId it).2.1) ∧
    ((ConvolutionalEncodeStore h tsId).1.getD tsId [] = h.getD tsId [] ∧
      h.length ≤ (ConvolutionalEncodeStore h tsId).2) ∧
    ((EncodePacketStore h tsId sc it).1.getD tsId [] = h.getD tsId [] ∧
      h.length ≤ (EncodePacketStore h tsId sc it).2.1) ∧
    (∀ q, q < h.length →
      (EncodePacketStore h tsId sc it).1.getD q [] = h.getD q []) := by
  obtain ⟨a1, b1, c1⟩ := scrambleTSStoreFrame h tsId sc tsId hts
  obtain ⟨a2, b2, c2⟩ := encodeStoreFrame h tsId tsId hts
  obtain ⟨a3, b3, c3⟩ := interleaveStoreFrame h tsId it tsId hts
  obtain ⟨a4, b4, c4⟩ := convStoreFrame h tsId tsId hts
  obtain ⟨a5, b5, c5⟩ := encodePacketStoreFrame h tsId sc it tsId hts
  refine ⟨⟨a1, by omega⟩, ⟨a2, by omega⟩, ⟨a3, by omega⟩, ⟨a4, by omega⟩,
    ⟨a5, by omega⟩, ?_⟩
  intro q hqlt
  exact (encodePacketStoreFrame h tsId sc it q hqlt).1

/-- Witness for C10 on a two-byte input slice in a one-slice store. -/
theorem C10_no_input_mutation_witness :
    (0 : Nat) < ([[7, 8]] : Heap).length ∧
    (((ScrambleTSStore [[7, 8]] 0 ⟨0, 0⟩).1.getD 0 [] = ([[7, 8]] : Heap).getD 0 [] ∧
      ([[7, 8]] : Heap).length ≤ (ScrambleTSStore [[7, 8]] 0 ⟨0, 0⟩).2.1) ∧
    ((EncodeStore [[7, 8]] 0).1.getD 0 [] = ([[7, 8]] : Heap).getD 0 [] ∧
      ([[7, 8]] : Heap).length ≤ (EncodeStore [[7, 8]] 0).2) ∧
    ((InterleaveStore [[7, 8]] 0 interleaverInit).1.getD 0 [] =
        ([[7, 8]] : Heap).getD 0 [] ∧
      ([[7, 8]] : Heap).length ≤ (InterleaveStore [[7, 8]] 0 interleaverInit).2.1) ∧
    ((ConvolutionalEncodeStore [[7, 8]] 0).1.getD 0 [] = ([[7, 8]] : Heap).getD 0 [] ∧
      ([[7, 8]] : Heap).length ≤ (ConvolutionalEncodeStore [[7, 8]] 0).2) ∧
    ((EncodePacketStore [[7, 8]] 0 ⟨0, 0⟩ interleaverInit).1.getD 0 [] =
        ([[7, 8]] : Heap).getD 0 [] ∧
      ([[7, 8]] : Heap).length ≤
        (EncodePacketStore [[7, 8]] 0 ⟨0, 0⟩ interleaverInit).2.1) ∧
    (∀ q, q < ([[7, 8]] : Heap).length →
      (EncodePacketStore [[7, 8]] 0 ⟨0, 0⟩ interleaverInit).1.getD q [] =
        ([[7, 8]] : Heap).getD q [])) :=
  ⟨by decide, C10_no_input_mutation [[7, 8]] 0 ⟨0, 0⟩ interleaverInit (by decide)⟩

end HackDVBS
